import Mathlib

/-!
Verification of the Row-Column game decision engine.

This file gives a shallow embedding of the move-selection core of the
Row-Column game repository (board model, legal-move generation, the five
strategies and the simulation harness step) and proves properties of the
embedded code.

Conventions of the embedding:
* A board handed to a strategy is a list of rows of `Cell`s; `Cell.claimed`
  is the Python marker `'-'`, `Cell.num v` a numeric cell.
* MCTS and alpha-beta convert that board to an internal board of naturals
  where `0` stands for a taken cell, exactly as the Python code does.
* Python's `random` module is abstracted: a shuffle becomes the application
  of an arbitrary permutation selected by a seed stream `g : ℕ → ℕ`,
  `random.choice` an index selected by the stream, and theorems quantify
  over every stream.
* Floating point `math.log` / `math.sqrt` inside the UCB1 formula are
  abstracted as arbitrary functions `flog fsqrt : ℚ → ℚ`; no claim depends
  on their values.  All other arithmetic is exact (`ℕ`, `ℤ`, `ℚ`).
* The MCTS wall-clock loop (`while time.time()-start_time < time_limit`)
  becomes an iteration count `iters`; the Python loop always runs at least
  one iteration, so theorems about a finished search assume `1 ≤ iters`.
-/

/-- A board cell: either still-open numeric value, or the claimed marker `'-'`. -/
inductive Cell where
  | num (v : ℕ)
  | claimed
deriving DecidableEq

/-- A move is a 0-indexed (row, column) pair. -/
abbrev Move := ℕ × ℕ

/-- Board representation handed to strategies by the game handler. -/
abbrev CBoard := List (List Cell)

/-- Internal board representation of MCTS / alpha-beta: `0` = taken. -/
abbrev IBoard := List (List ℕ)

/-- Read a cell; out-of-range reads default to `claimed` (they are unreachable
for the in-range indices used by the code). -/
def cellAt (b : CBoard) (r c : ℕ) : Cell :=
  ((b[r]?.getD []))[c]?.getD Cell.claimed

/-- Read an internal-board cell; out-of-range reads default to `0`. -/
def cellI (b : IBoard) (r c : ℕ) : ℕ :=
  ((b[r]?.getD []))[c]?.getD 0

/-- Numeric value of a cell, `0` for the claimed marker. -/
def Cell.toInternal : Cell → ℕ
  | .num v => v
  | .claimed => 0

/-- The conversion `[[0 if cell=="-" else cell for cell in row] for row in board]`
performed at the top of `MCTSStrategy.move` and `AlphaBetaStrategy.move`. -/
def toInternal (b : CBoard) : IBoard :=
  b.map (fun row => row.map Cell.toInternal)

/-- Write a cell of a `CBoard` (`self.matrix[row][col] = "-"`). -/
def setCell (b : CBoard) (r c : ℕ) (x : Cell) : CBoard :=
  b.set r ((b[r]?.getD []).set c x)

/-- Write a cell of an `IBoard` (`copied_board[r][c] = 0`). -/
def setCellI (b : IBoard) (r c : ℕ) (x : ℕ) : IBoard :=
  b.set r ((b[r]?.getD []).set c x)

/-- The board is square: every row has length `len(board)`. -/
def squareB (b : CBoard) : Bool :=
  b.all (fun row => row.length == b.length)

/-- The last move, when present, is an in-range coordinate of the board. -/
def lmOkB (b : CBoard) (lm : Option Move) : Bool :=
  match lm with
  | none => true
  | some m => decide (m.1 < b.length) && decide (m.2 < b.length)

/-- Every unclaimed cell of the board carries a positive value. -/
def allPosB (b : CBoard) : Bool :=
  b.all (fun row => row.all (fun c =>
    match c with
    | .num v => decide (0 < v)
    | .claimed => true))

/-- Squareness of an internal board: every row has length `len(board)`. -/
def squareI (b : IBoard) : Bool :=
  b.all (fun row => row.length == b.length)

/-- The last move, when present, is in range of an internal board. -/
def lmOkI (b : IBoard) (lm : Option Move) : Bool :=
  match lm with
  | none => true
  | some m => decide (m.1 < b.length) && decide (m.2 < b.length)

/-- The legal move list computed by `RandomStrategy.move` and
`GreedyStrategy.move`: a row-major scan of the full `n × n` grid keeping
unclaimed cells and, when a last move `(r0, c0)` exists, keeping only cells
with `r == r0 or c == c0`. -/
def availableCellsRM (b : CBoard) (lm : Option Move) : List Move :=
  let n := b.length
  match lm with
  | none =>
      (List.range n).flatMap (fun r =>
        (List.range n).filterMap (fun c =>
          if cellAt b r c ≠ Cell.claimed then some (r, c) else none))
  | some (r0, c0) =>
      (List.range n).flatMap (fun r =>
        (List.range n).filterMap (fun c =>
          if cellAt b r c ≠ Cell.claimed ∧ (r = r0 ∨ c = c0) then some (r, c)
          else none))

/-- Numeric value of a board cell (`0` for the claimed marker; the claimed
case is unreachable wherever the code reads a value, because legality was
checked first). -/
def cellValN (b : CBoard) (r c : ℕ) : ℕ :=
  (cellAt b r c).toInternal

/-- Python's `max(l, key=key)`: scan keeping the current best, replacing it
only when a strictly larger key appears (so ties keep the earliest element). -/
def pyMaxGo {α β : Type} [LinearOrder β] (key : α → β) (b : α) : List α → α
  | [] => b
  | x :: xs => if key b < key x then pyMaxGo key x xs else pyMaxGo key b xs

/-- Python's `max(l, key=key)` as an `Option` (Python raises on an empty list;
the callers in this code base always guard against that). -/
def pyMax {α β : Type} [LinearOrder β] (key : α → β) : List α → Option α
  | [] => none
  | x :: xs => some (pyMaxGo key x xs)

/-- The insertion step of a stable sort: insert `a` in front of the first
element `b` with `le a b`. -/
def pyInsert {α : Type} (le : α → α → Bool) (a : α) : List α → List α
  | [] => [a]
  | b :: l => if le a b then a :: b :: l else b :: pyInsert le a l

/-- A stable sort modelling Python's `list.sort(key=...)` / `sorted`: an
insertion sort is stable, and a stable sort's output is determined by the
input list and the (total, reflexive) boolean comparison alone, so this has
exactly the behaviour of Python's sort for the comparisons used here. -/
def pySortStable {α : Type} (le : α → α → Bool) : List α → List α
  | [] => []
  | a :: l => pyInsert le a (pySortStable le l)

/-- Decode a permutation from a seed (factorial number system): repeatedly
pick the element at position `k mod length`.  Together with a universally
quantified seed this models `random.shuffle`, which produces some permutation
of its input.  The fuel argument equals the list length at the top call; the
fuel-exhausted branch is unreachable there. -/
def permuteIdxAux {α : Type} : ℕ → ℕ → List α → List α
  | 0, _, l => l
  | fuel + 1, k, l =>
      match l with
      | [] => []
      | a :: t =>
          let xs := a :: t
          let i := k % xs.length
          xs.getD i a :: permuteIdxAux fuel (k / xs.length) (xs.eraseIdx i)

/-- The permutation of `l` selected by seed `k` (model of `random.shuffle`). -/
def permuteIdx {α : Type} (k : ℕ) (l : List α) : List α :=
  permuteIdxAux l.length k l

/-- Embedding of `RandomStrategy.move`.  `random.choice(available)` is
modelled as indexing by an arbitrary natural `k` (theorems quantify over
`k`, covering every choice the random source can make). -/
def RandomStrategy.move (k : ℕ) (matrix : CBoard) (last_move : Option Move)
    (scores : ℕ × ℕ) : Option Move :=
  let available := availableCellsRM matrix last_move
  if available.isEmpty then none
  else some (available.getD (k % available.length) (0, 0))

/-- Embedding of `GreedyStrategy.move`: the row-major legal-cell list, then
Python's `max` keyed by `float(matrix[pos[0]][pos[1]])` (exact on the integer
cell values used by the game). -/
def GreedyStrategy.move (matrix : CBoard) (last_move : Option Move)
    (scores : ℕ × ℕ) : Option Move :=
  let available := availableCellsRM matrix last_move
  if available.isEmpty then none
  else pyMax (fun pos => ((cellValN matrix pos.1 pos.2 : ℕ) : ℚ)) available

/-- The state owned by `SimulationEngine`: board copy, score pair, current
player index (0 or 1) and last move. -/
structure SimState where
  matrix : CBoard
  score : ℕ × ℕ
  current_player : ℕ
  last_move : Option Move
deriving DecidableEq

/-- Embedding of `SimulationEngine.get_available_moves`: on a restricted turn
the same-column cells are collected first, then the same-row cells skipping
the intersection. -/
def SimulationEngine.get_available_moves (st : SimState) : List Move :=
  let dim := st.matrix.length
  match st.last_move with
  | none =>
      (List.range dim).flatMap (fun r =>
        (List.range dim).filterMap (fun c =>
          if cellAt st.matrix r c ≠ Cell.claimed then some (r, c) else none))
  | some (last_r, last_c) =>
      ((List.range dim).filterMap (fun r =>
        if cellAt st.matrix r last_c ≠ Cell.claimed then some (r, last_c)
        else none)) ++
      ((List.range dim).filterMap (fun c =>
        if c ≠ last_c ∧ cellAt st.matrix last_r c ≠ Cell.claimed
        then some (last_r, c) else none))

/-- Outcome of one iteration of `SimulationEngine.run_game`'s loop:
the game is over, a `ValueError` is raised on a non-available move (carrying
the engine state as it is at the `raise`), or play advances. -/
inductive SimStep where
  | finished
  | illegal (st : SimState)
  | next (st : SimState)
deriving DecidableEq

/-- One iteration of the `while True` loop of `SimulationEngine.run_game`:
compute the available moves; stop if none; ask the strategy for a move; raise
(`SimStep.illegal`, carrying the untouched state) if the move is not
available; otherwise add the cell value to the mover's score, mark the cell
taken, record the last move and switch players.  The legality check happens
before any of the state writes, exactly as in the source. -/
def SimulationEngine.step (strat : CBoard → Option Move → ℕ × ℕ → Option Move)
    (st : SimState) : SimStep :=
  let available_moves := SimulationEngine.get_available_moves st
  if available_moves.isEmpty then .finished
  else
    match strat st.matrix st.last_move st.score with
    | none => .illegal st
    | some mv =>
        if mv ∈ available_moves then
          let value := cellValN st.matrix mv.1 mv.2
          let score' :=
            if st.current_player = 0 then (st.score.1 + value, st.score.2)
            else (st.score.1, st.score.2 + value)
          .next ⟨setCell st.matrix mv.1 mv.2 Cell.claimed, score',
            1 - st.current_player, some mv⟩
        else .illegal st

/-- Spec-side definition (from the words of the greedy claim, not from the
code): the legal move of maximal cell value whose position is the last such
move in row-major enumeration order.  Compared against the code's
`GreedyStrategy.move` below. -/
def greedySpecLastMax (matrix : CBoard) (last_move : Option Move) : Option Move :=
  let available := availableCellsRM matrix last_move
  if available.isEmpty then none
  else
    (available.reverse).foldl
      (fun best m =>
        match best with
        | none => some m
        | some b => if cellValN matrix b.1 b.2 < cellValN matrix m.1 m.2
            then some m else some b)
      none

/-- A strategy result respects the legal move set: it is `None` exactly when
no legal move exists, and any returned move is legal. -/
def respectsLegal (res : Option Move) (b : CBoard) (lm : Option Move) : Prop :=
  (res = none ↔ availableCellsRM b lm = []) ∧
    ∀ m, res = some m → m ∈ availableCellsRM b lm

/-- Embedding of `SafeChoiceStrategy._cell_value`: `None` for a claimed cell,
the (exact) numeric value otherwise. -/
def SafeChoiceStrategy.cell_value (matrix : CBoard) (i j : ℕ) : Option ℚ :=
  match cellAt matrix i j with
  | .claimed => none
  | .num v => some (v : ℚ)

/-- Embedding of `SafeChoiceStrategy._valid_moves`: same-row cells first,
then same-column cells not in the `seen` set (the `seen` set holds exactly
the free same-row cells). -/
def SafeChoiceStrategy.valid_moves (matrix : CBoard) (last_move : Option Move) :
    List Move :=
  let n := matrix.length
  match last_move with
  | none =>
      (List.range n).flatMap (fun i =>
        (List.range n).filterMap (fun j =>
          if cellAt matrix i j ≠ Cell.claimed then some (i, j) else none))
  | some (r0, c0) =>
      ((List.range n).filterMap (fun j =>
        if cellAt matrix r0 j ≠ Cell.claimed then some (r0, j) else none)) ++
      ((List.range n).filterMap (fun i =>
        if cellAt matrix i c0 ≠ Cell.claimed ∧
            ¬(i = r0 ∧ cellAt matrix r0 c0 ≠ Cell.claimed)
        then some (i, c0) else none))

/-- Embedding of `SafeChoiceStrategy._top2_from_values`: highest distinct
value with its multiplicity, and the second highest with its multiplicity. -/
def SafeChoiceStrategy.top2_from_values (vals : List ℚ) :
    Option ℚ × ℕ × Option ℚ × ℕ :=
  match vals with
  | [] => (none, 0, none, 0)
  | _ :: _ =>
      let distinct := pySortStable (fun a b => decide (b ≤ a)) vals.dedup
      match distinct with
      | [] => (none, 0, none, 0)
      | t1 :: rest =>
          match rest with
          | [] => (some t1, vals.count t1, none, 0)
          | t2 :: _ => (some t1, vals.count t1, some t2, vals.count t2)

/-- Embedding of `SafeChoiceStrategy._top2_summary_row` (the per-decision
cache is a pure memoisation and has no observable effect). -/
def SafeChoiceStrategy.top2_summary_row (matrix : CBoard) (i : ℕ) :
    Option ℚ × ℕ × Option ℚ × ℕ :=
  SafeChoiceStrategy.top2_from_values
    ((List.range matrix.length).filterMap (fun j =>
      if cellAt matrix i j ≠ Cell.claimed
      then SafeChoiceStrategy.cell_value matrix i j else none))

/-- Embedding of `SafeChoiceStrategy._top2_summary_col`. -/
def SafeChoiceStrategy.top2_summary_col (matrix : CBoard) (j : ℕ) :
    Option ℚ × ℕ × Option ℚ × ℕ :=
  SafeChoiceStrategy.top2_from_values
    ((List.range matrix.length).filterMap (fun i =>
      if cellAt matrix i j ≠ Cell.claimed
      then SafeChoiceStrategy.cell_value matrix i j else none))

/-- Shared body of `SafeChoiceStrategy._parity_from_row_excluding` and
`_parity_from_col_excluding` (the two Python static methods are textually
identical and ignore their coordinate arguments). -/
def SafeChoiceStrategy.parity_from_excluding (v_ij : ℚ)
    (summary : Option ℚ × ℕ × Option ℚ × ℕ) : ℤ :=
  match summary with
  | (top1, cnt1, _top2, cnt2) =>
      match top1 with
      | none => 1
      | some t1 =>
          let m := if v_ij = t1 then (if cnt1 > 1 then cnt1 - 1 else cnt2)
            else cnt1
          if m % 2 = 0 then 1 else -1

/-- Embedding of `SafeChoiceStrategy._opponent_best_after`: best free value
in row `i` (excluding column `j`) or column `j` (excluding row `i`); the
`float("-inf")` sentinel becomes `Option.none`, mapped to `0.0` at the end. -/
def SafeChoiceStrategy.opponent_best_after (matrix : CBoard) (i j : ℕ) : ℚ :=
  let n := matrix.length
  let best1 := (List.range n).foldl (fun best jj =>
    if jj = j then best
    else
      match SafeChoiceStrategy.cell_value matrix i jj with
      | none => best
      | some v =>
          match best with
          | none => some v
          | some b => if b < v then some v else some b) none
  let best2 := (List.range n).foldl (fun best ii =>
    if ii = i then best
    else
      match SafeChoiceStrategy.cell_value matrix ii j with
      | none => best
      | some v =>
          match best with
          | none => some v
          | some b => if b < v then some v else some b) best1
  match best2 with
  | none => 0
  | some b => b

/-- The ordering key `(composite + jitter, ones, a, b, -i, -j)` built by
`SafeChoiceStrategy.move`, with every component as an exact rational. -/
abbrev SCKey := ℚ × ℚ × ℚ × ℚ × ℚ × ℚ

/-- Python tuple comparison `key > best_key` on the 6-component key:
lexicographic, strictly greater at the first differing component. -/
def scKeyGt (x y : SCKey) : Bool :=
  if x.1 ≠ y.1 then decide (y.1 < x.1)
  else if x.2.1 ≠ y.2.1 then decide (y.2.1 < x.2.1)
  else if x.2.2.1 ≠ y.2.2.1 then decide (y.2.2.1 < x.2.2.1)
  else if x.2.2.2.1 ≠ y.2.2.2.1 then decide (y.2.2.2.1 < x.2.2.2.1)
  else if x.2.2.2.2.1 ≠ y.2.2.2.2.1 then decide (y.2.2.2.2.1 < x.2.2.2.2.1)
  else decide (y.2.2.2.2.2 < x.2.2.2.2.2)

/-- The final comparison of the selection loop of `SafeChoiceStrategy.move`:
`if best_key is None or key > best_key` keep the new candidate, else keep the
best so far. -/
def SafeChoiceStrategy.update_best (best : Option Move)
    (best_key : Option SCKey) (idx : ℕ) (c : Move) (key : SCKey) :
    (Option Move × Option SCKey) × ℕ :=
  match best_key with
  | none => ((some c, some key), idx + 1)
  | some bk =>
      if scKeyGt key bk then ((some c, some key), idx + 1)
      else ((best, best_key), idx + 1)

/-- The per-candidate body of the selection loop of
`SafeChoiceStrategy.move` (split out so the fold can be reasoned about):
compute the parity features, the opponent's best reply, the composite score
and the ordering key, and keep the candidate via
`SafeChoiceStrategy.update_best`. -/
def SafeChoiceStrategy.scan_step (alpha beta gamma delta epsilon jitter : ℚ)
    (jr : ℕ → ℚ) (matrix : CBoard)
    (st : (Option Move × Option SCKey) × ℕ) (c : Move) :
    (Option Move × Option SCKey) × ℕ :=
  let best := st.1.1
  let best_key := st.1.2
  let idx := st.2
  match SafeChoiceStrategy.cell_value matrix c.1 c.2 with
  | none => ((best, best_key), idx + 1)
  | some v =>
      let a := SafeChoiceStrategy.parity_from_excluding v
        (SafeChoiceStrategy.top2_summary_row matrix c.1)
      let b := SafeChoiceStrategy.parity_from_excluding v
        (SafeChoiceStrategy.top2_summary_col matrix c.2)
      let ones : ℕ := (if a = 1 then 1 else 0) + (if b = 1 then 1 else 0)
      let opp_best := SafeChoiceStrategy.opponent_best_after matrix c.1 c.2
      let composite := alpha * v - beta * opp_best + gamma * (ones : ℚ)
        + delta * (a : ℚ) + epsilon * (b : ℚ)
      let jit : ℚ := if jitter ≠ 0 then jr idx * jitter else 0
      let key : SCKey := (composite + jit, (ones : ℚ), (a : ℚ), (b : ℚ),
        -(c.1 : ℚ), -(c.2 : ℚ))
      SafeChoiceStrategy.update_best best best_key idx c key

/-- Embedding of `SafeChoiceStrategy.move`.  Weights are the constructor
parameters (defaults α=1, β=1, γ=0.15, δ=ε=0.05, jitter=0); `jr` models the
`random.random()` draw used only when `jitter ≠ 0` (indexed by the candidate
position in the scan).  The float constants 0.15/0.05 are represented as
exact rationals; no property proved here depends on rounding. -/
def SafeChoiceStrategy.move (alpha beta gamma delta epsilon jitter : ℚ)
    (jr : ℕ → ℚ) (matrix : CBoard) (last_move : Option Move)
    (scores : ℕ × ℕ) : Option Move :=
  let n := matrix.length
  if n = 0 then none
  else
    let candidates := SafeChoiceStrategy.valid_moves matrix last_move
    if candidates.isEmpty then none
    else
      let res := candidates.foldl
        (SafeChoiceStrategy.scan_step alpha beta gamma delta epsilon jitter
          jr matrix)
        ((none, none), 0)
      res.1.1

/-- Embedding of the static `MCTSNode.get_available_moves(board, last_move)`
on the internal board (`0` = taken): without a last move every nonzero cell,
otherwise the nonzero cells of the last move's row followed by the nonzero
cells of its column skipping the intersection row. -/
def MCTSNode.get_available_moves (board : IBoard) (last_move : Option Move) :
    List Move :=
  match last_move with
  | none =>
      (List.range board.length).flatMap (fun r =>
        (List.range (board[r]?.getD []).length).filterMap (fun c =>
          if cellI board r c ≠ 0 then some (r, c) else none))
  | some (last_r, last_c) =>
      ((List.range (board[last_r]?.getD []).length).filterMap (fun col =>
        if cellI board last_r col ≠ 0 then some (last_r, col) else none)) ++
      ((List.range board.length).filterMap (fun r =>
        if r ≠ last_r ∧ cellI board r last_c ≠ 0 then some (r, last_c)
        else none))

/-- The per-node data of an `MCTSNode` (board snapshot, last move, player to
move, the move that produced the node, score pair, visit count, accumulated
result, and the mutable `untried_actions` list). -/
structure MCTSData where
  board : IBoard
  last_move : Option Move
  player_turn : ℕ
  move : Option Move
  scores : ℕ × ℕ
  visits : ℕ
  score_total : ℚ
  untried_actions : List Move

/-- An MCTS search tree node: its data plus its owned children (the Python
parent back-reference is realised by the recursive update in `iterStep`). -/
inductive MCTSTree where
  | node (data : MCTSData) (children : List MCTSTree)

/-- The data stored at the root of a subtree. -/
def MCTSTree.data : MCTSTree → MCTSData
  | .node d _ => d

/-- The children of the root of a subtree. -/
def MCTSTree.children : MCTSTree → List MCTSTree
  | .node _ c => c

/-- Embedding of `MCTSNode.__init__`: compute the available moves, shuffle
them (the seed-stream draw selects which permutation) and sort ascending by
cell value so that `pop()` removes the best move first.  Returns the node and
the advanced stream counter. -/
def MCTSNode.init (g : ℕ → ℕ) (board : IBoard) (last_move : Option Move)
    (player_turn : ℕ) (move : Option Move) (scores : ℕ × ℕ) (ctr : ℕ) :
    MCTSTree × ℕ :=
  let avail := MCTSNode.get_available_moves board last_move
  let shuffled := permuteIdx (g ctr) avail
  let untried := pySortStable
    (fun m1 m2 => decide (cellI board m1.1 m1.2 ≤ cellI board m2.1 m2.2))
    shuffled
  (MCTSTree.node ⟨board, last_move, player_turn, move, scores, 0, 0, untried⟩ [],
    ctr + 1)

/-- Embedding of `MCTSNode.is_terminal`. -/
def MCTSTree.is_terminal (t : MCTSTree) : Bool :=
  t.data.untried_actions.isEmpty && t.children.isEmpty

/-- Embedding of `MCTSNode.is_fully_expanded`. -/
def MCTSTree.is_fully_expanded (t : MCTSTree) : Bool :=
  t.data.untried_actions.isEmpty

/-- Embedding of `MCTSNode.update`. -/
def MCTSTree.update (t : MCTSTree) (result : ℚ) : MCTSTree :=
  .node { t.data with
            visits := t.data.visits + 1,
            score_total := t.data.score_total + result } t.children

/-- The scan of `MCTSNode.best_child`: return the index of the first child
with zero visits, else the index of the first child maximising UCB1.
`flog`/`fsqrt` stand for float `math.log`/`math.sqrt`; the exploration
constant is `fsqrt 2` (`UCB_CONST = math.sqrt(2)`). -/
def MCTSNode.best_child_scan (flog fsqrt : ℚ → ℚ) (log_n : ℚ) :
    List MCTSTree → ℕ → Option (ℕ × ℚ) → Option ℕ
  | [], _, best => best.map Prod.fst
  | c :: cs, i, best =>
      if c.data.visits = 0 then some i
      else
        let exploitation := c.data.score_total / (c.data.visits : ℚ)
        let exploration := fsqrt 2 * fsqrt (log_n / (c.data.visits : ℚ))
        let ucb := exploitation + exploration
        match best with
        | none => MCTSNode.best_child_scan flog fsqrt log_n cs (i + 1) (some (i, ucb))
        | some b =>
            if b.2 < ucb then
              MCTSNode.best_child_scan flog fsqrt log_n cs (i + 1) (some (i, ucb))
            else MCTSNode.best_child_scan flog fsqrt log_n cs (i + 1) (some b)

/-- Embedding of `MCTSNode.best_child` (index of the selected child). -/
def MCTSNode.best_child (flog fsqrt : ℚ → ℚ) (t : MCTSTree) : Option ℕ :=
  MCTSNode.best_child_scan flog fsqrt (flog (t.data.visits : ℚ)) t.children 0 none

/-- One step of the rollout loop of `MCTSStrategy.simulate`, with the move
list computed inline exactly as in the source (the row scan uses
`len(copied_board[0])`).  Each loop pass claims one nonzero cell, so the
nonzero-cell count is sufficient fuel; the fuel-exhausted branch is
unreachable at the call below. -/
def MCTSStrategy.simulate_loop (g : ℕ → ℕ) :
    ℕ → IBoard → Option Move → ℤ → ℤ → ℕ → ℕ → ℤ × ℤ × ℕ
  | 0, _, _, p1, p2, _, ctr => (p1, p2, ctr)
  | fuel + 1, copied_board, copied_last_move, p1, p2, sim_turn, ctr =>
      let moves :=
        match copied_last_move with
        | none =>
            (List.range copied_board.length).flatMap (fun r =>
              (List.range (copied_board[r]?.getD []).length).filterMap (fun c =>
                if cellI copied_board r c ≠ 0 then some (r, c) else none))
        | some (lastrow, lastcol) =>
            ((List.range (copied_board[0]?.getD []).length).filterMap (fun col =>
              if cellI copied_board lastrow col ≠ 0 then some (lastrow, col)
              else none)) ++
            ((List.range copied_board.length).filterMap (fun row =>
              if row ≠ lastrow ∧ cellI copied_board row lastcol ≠ 0
              then some (row, lastcol) else none))
      if moves.isEmpty then (p1, p2, ctr)
      else
        let coin := g ctr
        let mvctr : Move × ℕ :=
          if coin % 2 = 0 then
            (moves.getD (g (ctr + 1) % moves.length) (0, 0), ctr + 2)
          else
            ((pyMax (fun m => cellI copied_board m.1 m.2) moves).getD (0, 0),
              ctr + 1)
        let mv := mvctr.1
        let val := cellI copied_board mv.1 mv.2
        let board' := setCellI copied_board mv.1 mv.2 0
        let p1' := if sim_turn = 1 then p1 + (val : ℤ) else p1
        let p2' := if sim_turn = 1 then p2 else p2 + (val : ℤ)
        MCTSStrategy.simulate_loop g fuel board' (some mv) p1' p2'
          (3 - sim_turn) mvctr.2

/-- Count of nonzero cells of an internal board (used as rollout fuel and by
`_dynamic_depth`). -/
def countNonzero (board : IBoard) : ℕ :=
  (board.map (fun row => (row.filter (fun v => v ≠ 0)).length)).sum

/-- Embedding of `MCTSStrategy.simulate`: epsilon-greedy rollout from the
node's state, result `(perspective score − opponent score) / total_sum`. -/
def MCTSStrategy.simulate (g : ℕ → ℕ) (total_sum : ℚ) (t : MCTSTree)
    (ctr : ℕ) : ℚ × ℕ :=
  let out := MCTSStrategy.simulate_loop g (countNonzero t.data.board)
    t.data.board t.data.last_move (t.data.scores.1 : ℤ) (t.data.scores.2 : ℤ)
    t.data.player_turn ctr
  let raw : ℤ :=
    if t.data.player_turn = 1 then out.1 - out.2.1 else out.2.1 - out.1
  ((raw : ℚ) / total_sum, out.2.2)

/-- One iteration of the MCTS search loop: selection (descend through best
children of fully expanded non-terminal nodes), expansion (pop the last
untried action and create its child), simulation, and backpropagation with
alternating sign (realised by the returned "result received by this node",
negated at each level up).  The fuel bounds the selection descent depth (the
tree height never exceeds the iteration count plus one, so the fuel passed in
`MCTSStrategy.move` is sufficient and the fuel-exhausted branch unreachable). -/
def MCTSStrategy.iterStep (flog fsqrt : ℚ → ℚ) (g : ℕ → ℕ) (total_sum : ℚ) :
    ℕ → MCTSTree → ℕ → MCTSTree × ℚ × ℕ
  | 0, t, ctr => (t, 0, ctr)
  | fuel + 1, t, ctr =>
      if t.is_terminal = false ∧ t.is_fully_expanded = true then
        match MCTSNode.best_child flog fsqrt t with
        | some i =>
            let c := t.children.getD i t
            let rec1 := MCTSStrategy.iterStep flog fsqrt g total_sum fuel c ctr
            (MCTSTree.node
              { t.data with
                  visits := t.data.visits + 1,
                  score_total := t.data.score_total + (-rec1.2.1) }
              (t.children.set i rec1.1), -rec1.2.1, rec1.2.2)
        | none => (t, 0, ctr)
      else if t.is_terminal = false then
        let action := t.data.untried_actions.getLastD (0, 0)
        let value := cellI t.data.board action.1 action.2
        let copied_board := setCellI t.data.board action.1 action.2 0
        let new_scores :=
          if t.data.player_turn = 1 then (t.data.scores.1 + value, t.data.scores.2)
          else (t.data.scores.1, t.data.scores.2 + value)
        let mk := MCTSNode.init g copied_board (some action)
          (3 - t.data.player_turn) (some action) new_scores ctr
        let sim := MCTSStrategy.simulate g total_sum mk.1 mk.2
        let child := mk.1.update (-sim.1)
        (MCTSTree.node
          { t.data with
              untried_actions := t.data.untried_actions.dropLast,
              visits := t.data.visits + 1,
              score_total := t.data.score_total + sim.1 }
          (t.children ++ [child]), sim.1, sim.2)
      else
        let sim := MCTSStrategy.simulate g total_sum t ctr
        (t.update (-sim.1), -sim.1, sim.2)

/-- The time-boxed `while` loop of `MCTSStrategy.move`, as `iters` complete
iterations (the Python loop checks the clock between iterations and always
runs at least one when the budget is positive). -/
def MCTSStrategy.search_loop (flog fsqrt : ℚ → ℚ) (g : ℕ → ℕ) (total_sum : ℚ)
    (fuel : ℕ) : ℕ → MCTSTree → ℕ → MCTSTree × ℕ
  | 0, t, ctr => (t, ctr)
  | k + 1, t, ctr =>
      let step := MCTSStrategy.iterStep flog fsqrt g total_sum fuel t ctr
      MCTSStrategy.search_loop flog fsqrt g total_sum fuel k step.1 step.2.2

/-- The tail of `MCTSStrategy.move` after the root node has been built:
short-circuit on zero or one untried action, otherwise run the search loop
and return the move of the root child with the highest visit count (Python
`max`, first on ties).  Split out of the embedding of `MCTSStrategy.move`
only so that its theorems can quantify over an arbitrary root. -/
def MCTSStrategy.decide_from_root (flog fsqrt : ℚ → ℚ) (g : ℕ → ℕ)
    (iters : ℕ) (total_sum : ℚ) (rootmk : MCTSTree × ℕ) : Option Move :=
  if rootmk.1.data.untried_actions.isEmpty then none
  else if rootmk.1.data.untried_actions.length = 1 then
    some (rootmk.1.data.untried_actions.getD 0 (0, 0))
  else
    let final := MCTSStrategy.search_loop flog fsqrt g total_sum (iters + 1)
      iters rootmk.1 rootmk.2
    match pyMax (fun c : MCTSTree => c.data.visits) final.1.children with
    | some best_child => best_child.data.move
    | none => none

/-- Embedding of `MCTSStrategy.move`: convert `'-'` to `0`, compute the
normalisation total (`or 1`), infer the player to move from the parity of the
taken-cell count, build the root, and decide from it
(`MCTSStrategy.decide_from_root`). -/
def MCTSStrategy.move (flog fsqrt : ℚ → ℚ) (g : ℕ → ℕ) (iters : ℕ)
    (board : CBoard) (last_move : Option Move) (scores : ℕ × ℕ) : Option Move :=
  let internal_board := toInternal board
  let s := (internal_board.map (fun row => (row.filter (fun v => 0 < v)).sum)).sum
  let total_sum : ℚ := if s = 0 then 1 else (s : ℚ)
  let moves_made : ℕ := (internal_board.map (fun row => row.count 0)).sum
  let player_id : ℕ := if moves_made % 2 = 0 then 1 else 2
  let rootmk := MCTSNode.init g internal_board last_move player_id none scores 0
  MCTSStrategy.decide_from_root flog fsqrt g iters total_sum rootmk

/-- An `AlphaBetaNode`: immutable snapshot of board, last move, player to
move, the producing move and the score pair.  The cached move list and
cached children of the Python class are pure memoisation and are embedded as
recomputation. -/
structure ABNode where
  board : IBoard
  last_move : Option Move
  player_id : ℕ
  move : Option Move
  scores : ℕ × ℕ

/-- Embedding of `AlphaBetaNode.get_available_moves`: nonzero cells of the
whole board without a last move, else the nonzero cells of the last move's
row followed by those of its column skipping the intersection row. -/
def ABNode.get_available_moves (n : ABNode) : List Move :=
  match n.last_move with
  | none =>
      (List.range n.board.length).flatMap (fun r =>
        (List.range (n.board[r]?.getD []).length).filterMap (fun c =>
          if cellI n.board r c ≠ 0 then some (r, c) else none))
  | some (last_r, last_c) =>
      ((List.range (n.board[last_r]?.getD []).length).filterMap (fun c =>
        if cellI n.board last_r c ≠ 0 then some (last_r, c) else none)) ++
      ((List.range n.board.length).filterMap (fun r =>
        if r ≠ last_r ∧ cellI n.board r last_c ≠ 0 then some (r, last_c)
        else none))

/-- Embedding of `AlphaBetaNode.is_terminal`. -/
def ABNode.is_terminal (n : ABNode) : Bool :=
  n.get_available_moves.isEmpty

/-- Embedding of `AlphaBetaNode.generate_children`: one child per available
move, with the cell zeroed, the mover's score increased and the player id
swapped. -/
def ABNode.generate_children (n : ABNode) : List ABNode :=
  n.get_available_moves.map (fun mv =>
    let val := cellI n.board mv.1 mv.2
    let new_board := setCellI n.board mv.1 mv.2 0
    let s :=
      if n.player_id = 1 then (n.scores.1 + val, n.scores.2)
      else (n.scores.1, n.scores.2 + val)
    ⟨new_board, some mv, 3 - n.player_id, some mv, s⟩)

/-- Embedding of `AlphaBetaStrategy._dynamic_depth`.  Python's
`int(math.floor(math.log(max(budget, 2), b)))` is `Nat.log b (max budget 2)`;
for the branching values 2–10 reached here and the default budget 60000 the
float logarithm is far from an integer boundary, so the floor is exact. -/
def AlphaBetaStrategy.dynamic_depth (max_nodes_budget hard_depth_cap : ℕ)
    (board : IBoard) (last_move : Option Move) : ℕ :=
  let n := board.length
  let nonzero := countNonzero board
  let b := max 2 (min (2 * n - 1) 10)
  let d0 := Nat.log b (max max_nodes_budget 2)
  let d1 := min (min d0 nonzero) hard_depth_cap
  let d2 :=
    if n ≤ 3 then min nonzero 9
    else if n = 4 then min (d1 + 1) nonzero
    else d1
  max 1 d2

/-- Embedding of `AlphaBetaStrategy.evaluate` (root-player-centric static
evaluation).  The float weights 0.25 and 0.05 are exact rationals here; no
property proved in this file depends on their float rounding. -/
def AlphaBetaStrategy.evaluate (root_pid : ℕ) (node : ABNode) : ℚ :=
  let me := if root_pid = 1 then node.scores.1 else node.scores.2
  let opp := if root_pid = 1 then node.scores.2 else node.scores.1
  let score_diff : ℤ := (me : ℤ) - (opp : ℤ)
  let avail := node.get_available_moves
  let my_moves : ℤ := if node.player_id = root_pid then (avail.length : ℤ) else 0
  let opp_moves : ℤ := if node.player_id = root_pid then 0 else (avail.length : ℤ)
  let row_col_potential : ℕ :=
    match node.last_move with
    | none => 0
    | some (r, c) =>
        ((node.board[r]?.getD []).filter (fun v => v ≠ 0)).sum +
        (((List.range node.board.length).map (fun rr => cellI node.board rr c)).filter
          (fun v => v ≠ 0)).sum
  1 * (score_diff : ℚ) + (1 / 4) * ((my_moves - opp_moves : ℤ) : ℚ)
    + (1 / 20) * ((row_col_potential : ℕ) : ℚ)

/-- Extended rationals with `-inf` (`⊥`) and `+inf` (`⊤`), modelling the
`-math.inf` / `math.inf` sentinels of the alpha-beta search. -/
abbrev EQ := WithBot (WithTop ℚ)

/-- Embed a rational into the extended rationals. -/
def EQ.ofQ (q : ℚ) : EQ := ((q : WithTop ℚ) : EQ)

/-- Sort key of the minimax move ordering: `ch.scores[root_pid - 1]`. -/
def AlphaBetaStrategy.root_score (root_pid : ℕ) (ch : ABNode) : ℕ :=
  if root_pid = 1 then ch.scores.1 else ch.scores.2

/-- The MAX-node loop of `AlphaBetaStrategy.alpha_beta`: fold the children,
maximising the value, raising alpha, and breaking on `beta <= alpha`.  The
recursive evaluation of a child is the function argument `ab`. -/
def AlphaBetaStrategy.max_loop (ab : ABNode → EQ → EQ → EQ) :
    List ABNode → EQ → EQ → EQ → EQ
  | [], value, _, _ => value
  | child :: rest, value, alpha, beta =>
      let v := ab child alpha beta
      let value' := max value v
      let alpha' := max alpha value'
      if beta ≤ alpha' then value'
      else AlphaBetaStrategy.max_loop ab rest value' alpha' beta

/-- The MIN-node loop of `AlphaBetaStrategy.alpha_beta`: fold the children,
minimising the value, lowering beta, and breaking on `beta <= alpha`. -/
def AlphaBetaStrategy.min_loop (ab : ABNode → EQ → EQ → EQ) :
    List ABNode → EQ → EQ → EQ → EQ
  | [], value, _, _ => value
  | child :: rest, value, alpha, beta =>
      let v := ab child alpha beta
      let value' := min value v
      let beta' := min beta value'
      if beta' ≤ alpha then value'
      else AlphaBetaStrategy.min_loop ab rest value' alpha beta'

/-- Embedding of `AlphaBetaStrategy.alpha_beta`: cutoff or terminal yields
the static evaluation; otherwise generate the children, order them by the
root player's score (descending at MAX nodes, ascending at MIN nodes) and
run the pruning loop, whose recursive calls descend with `depth - 1` and the
flipped maximising flag. -/
def AlphaBetaStrategy.alpha_beta (root_pid : ℕ) :
    ℕ → ABNode → EQ → EQ → Bool → EQ
  | 0, node, _, _, _ => EQ.ofQ (AlphaBetaStrategy.evaluate root_pid node)
  | d + 1, node, alpha, beta, maximizing_player =>
      if node.is_terminal then EQ.ofQ (AlphaBetaStrategy.evaluate root_pid node)
      else
        let children := node.generate_children
        if maximizing_player then
          AlphaBetaStrategy.max_loop
            (fun c a bt => AlphaBetaStrategy.alpha_beta root_pid d c a bt false)
            (pySortStable (fun x y =>
              decide (AlphaBetaStrategy.root_score root_pid y ≤
                AlphaBetaStrategy.root_score root_pid x)) children)
            ⊥ alpha beta
        else
          AlphaBetaStrategy.min_loop
            (fun c a bt => AlphaBetaStrategy.alpha_beta root_pid d c a bt true)
            (pySortStable (fun x y =>
              decide (AlphaBetaStrategy.root_score root_pid x ≤
                AlphaBetaStrategy.root_score root_pid y)) children)
            ⊤ alpha beta

/-- Root move ordering key of `AlphaBetaStrategy.move`:
`ch.board[ch.move[0]][ch.move[1]]` — read on the child's own board, where the
move has already been zeroed (so the key is always `0`, a quirk preserved
from the source; children always carry a move, making the `none` default
unreachable). -/
def AlphaBetaStrategy.root_order_key (ch : ABNode) : ℕ :=
  match ch.move with
  | some mv => cellI ch.board mv.1 mv.2
  | none => 0

/-- The per-child body of the root loop of `AlphaBetaStrategy.move` (split
out so the fold can be reasoned about): evaluate the child at `depth - 1`
with the full window and keep it when its value is strictly greater than the
best so far. -/
def AlphaBetaStrategy.root_step (root_pid depth : ℕ)
    (best : Option Move × EQ) (ch : ABNode) : Option Move × EQ :=
  let val := AlphaBetaStrategy.alpha_beta root_pid (depth - 1) ch ⊥ ⊤ false
  if best.2 < val then (ch.move, val) else best

/-- The tail of `AlphaBetaStrategy.move` after the root node has been built:
return `None` on a terminal root, otherwise pick the dynamic depth, order the
root children (`reverse=True`), evaluate each at `depth - 1` keeping the
strictly best value, and fall back to the greedy available move if no
candidate was recorded.  Split out of the embedding of
`AlphaBetaStrategy.move` only so that its theorems can quantify over an
arbitrary root. -/
def AlphaBetaStrategy.decide_from_root (max_nodes_budget hard_depth_cap : ℕ)
    (root : ABNode) : Option Move :=
  if root.is_terminal then none
  else
    let depth := AlphaBetaStrategy.dynamic_depth max_nodes_budget hard_depth_cap
      root.board root.last_move
    let children := pySortStable
      (fun x y => decide (AlphaBetaStrategy.root_order_key y ≤
        AlphaBetaStrategy.root_order_key x))
      root.generate_children
    let res := children.foldl
      (AlphaBetaStrategy.root_step root.player_id depth)
      (none, (⊥ : EQ))
    match res.1 with
    | some best_move => some best_move
    | none =>
        match pyMax (fun m => cellI root.board m.1 m.2)
          root.get_available_moves with
        | some best_move => some best_move
        | none => none

/-- Embedding of `AlphaBetaStrategy.move`: convert `'-'` to `0`, infer the
player to move from the taken-cell parity, build the root node and decide
from it (`AlphaBetaStrategy.decide_from_root`). -/
def AlphaBetaStrategy.move (max_nodes_budget hard_depth_cap : ℕ)
    (board : CBoard) (last_move : Option Move) (scores : ℕ × ℕ) : Option Move :=
  let internal_board := toInternal board
  let moves_made : ℕ := (internal_board.map (fun row => row.count 0)).sum
  let player_id : ℕ := if moves_made % 2 = 0 then 1 else 2
  let root : ABNode := ⟨internal_board, last_move, player_id, none, scores⟩
  AlphaBetaStrategy.decide_from_root max_nodes_budget hard_depth_cap root

theorem pyInsert_perm {α : Type} (le : α → α → Bool) (a : α) (l : List α) :
    (pyInsert le a l).Perm (a :: l) := by
  induction l with
  | nil => simp [pyInsert]
  | cons b t ih =>
      simp only [pyInsert]
      by_cases h : le a b = true
      · simp [h]
      · simp only [h, if_false]
        exact ((ih.cons b).trans (List.Perm.swap a b t))

theorem pySortStable_perm {α : Type} (le : α → α → Bool) (l : List α) :
    (pySortStable le l).Perm l := by
  induction l with
  | nil => simp [pySortStable]
  | cons a t ih =>
      exact (pyInsert_perm le a (pySortStable le t)).trans (ih.cons a)

theorem pyMaxGo_mem {α β : Type} [LinearOrder β] (key : α → β) (b : α) (l : List α) :
    pyMaxGo key b l ∈ b :: l := by
  induction l generalizing b with
  | nil => simp [pyMaxGo]
  | cons x xs ih =>
      simp only [pyMaxGo]
      by_cases h : key b < key x
      · simp only [h, if_true]
        have := ih x
        simp only [List.mem_cons] at this ⊢
        tauto
      · simp only [h, if_false]
        have := ih b
        simp only [List.mem_cons] at this ⊢
        tauto

theorem pyMax_mem {α β : Type} [LinearOrder β] (key : α → β) (l : List α) (m : α)
    (h : pyMax key l = some m) : m ∈ l := by
  cases l with
  | nil => simp [pyMax] at h
  | cons x xs =>
      simp only [pyMax, Option.some.injEq] at h
      subst h
      exact pyMaxGo_mem key x xs

theorem pyMax_isSome {α β : Type} [LinearOrder β] (key : α → β) (l : List α)
    (h : l ≠ []) : ∃ m, pyMax key l = some m := by
  cases l with
  | nil => exact absurd rfl h
  | cons x xs => exact ⟨pyMaxGo key x xs, rfl⟩

theorem pyMaxGo_le {α β : Type} [LinearOrder β] (key : α → β) (b : α) (l : List α) :
    ∀ x ∈ b :: l, key x ≤ key (pyMaxGo key b l) := by
  induction l generalizing b with
  | nil =>
      intro x hx
      simp only [List.mem_cons, List.not_mem_nil, or_false] at hx
      subst hx
      simp [pyMaxGo]
  | cons y ys ih =>
      intro x hx
      simp only [pyMaxGo]
      by_cases h : key b < key y
      · simp only [h, if_true]
        rcases List.mem_cons.mp hx with hxb | hx2
        · subst hxb
          exact le_trans h.le (ih y y (List.mem_cons_self y ys))
        · exact ih y x hx2
      · simp only [h, if_false]
        rcases List.mem_cons.mp hx with hxb | hx2
        · subst hxb
          exact ih x x (List.mem_cons_self x ys)
        · rcases List.mem_cons.mp hx2 with hxy | hx3
          · subst hxy
            exact le_trans (le_of_not_lt h) (ih b b (List.mem_cons_self b ys))
          · exact ih b x (List.mem_cons_of_mem b hx3)

theorem mem_availableCellsRM (b : CBoard) (lm : Option Move) (m : Move) :
    m ∈ availableCellsRM b lm ↔
      m.1 < b.length ∧ m.2 < b.length ∧ cellAt b m.1 m.2 ≠ Cell.claimed ∧
        (∀ r0 c0, lm = some (r0, c0) → m.1 = r0 ∨ m.2 = c0) := by
  obtain ⟨mr, mc⟩ := m
  cases lm with
  | none =>
      simp [availableCellsRM, List.mem_flatMap, List.mem_filterMap, List.mem_range,
        Option.ite_none_right_eq_some, Prod.ext_iff]
      aesop
  | some p =>
      obtain ⟨r0, c0⟩ := p
      simp [availableCellsRM, List.mem_flatMap, List.mem_filterMap, List.mem_range,
        Option.ite_none_right_eq_some, Prod.ext_iff]
      aesop

theorem nodup_availableCellsRM (b : CBoard) (lm : Option Move) :
    (availableCellsRM b lm).Nodup := by
  have hrow : ∀ (f : ℕ → ℕ → Option Move),
      (∀ r c c' m, f r c = some m → f r c' = some m → c = c') →
      (∀ r c m, f r c = some m → m.1 = r) →
      ((List.range b.length).flatMap (fun r =>
        (List.range b.length).filterMap (fun c => f r c))).Nodup := by
    intro f hinj hfst
    rw [List.nodup_flatMap]
    constructor
    · intro r _
      exact List.Nodup.filterMap (fun c c' m hc hc' => hinj r c c' m hc hc')
        (List.nodup_range _)
    · refine List.Pairwise.imp ?_ (List.pairwise_lt_range _)
      intro r r' hlt m hm hm'
      simp only [List.mem_filterMap, List.mem_range] at hm hm'
      obtain ⟨c, _, hc⟩ := hm
      obtain ⟨c', _, hc'⟩ := hm'
      have h1 := hfst r c m hc
      have h2 := hfst r' c' m hc'
      omega
  cases lm with
  | none =>
      have he : availableCellsRM b none =
          (List.range b.length).flatMap (fun r =>
            (List.range b.length).filterMap (fun c =>
              if cellAt b r c ≠ Cell.claimed then some (r, c) else none)) := rfl
      rw [he]
      exact hrow (fun r c => if cellAt b r c ≠ Cell.claimed then some (r, c) else none)
        (by
          intro r c c' m hc hc'
          simp only [Option.ite_none_right_eq_some, Option.some.injEq] at hc hc'
          have h3 : (r, c) = ((r, c') : Move) := hc.2.trans hc'.2.symm
          exact (Prod.ext_iff.mp h3).2)
        (by
          intro r c m hc
          simp only [Option.ite_none_right_eq_some, Option.some.injEq] at hc
          simp [← hc.2])
  | some p =>
      obtain ⟨r0, c0⟩ := p
      have he : availableCellsRM b (some (r0, c0)) =
          (List.range b.length).flatMap (fun r =>
            (List.range b.length).filterMap (fun c =>
              if cellAt b r c ≠ Cell.claimed ∧ (r = r0 ∨ c = c0) then some (r, c)
              else none)) := rfl
      rw [he]
      exact hrow (fun r c =>
        if cellAt b r c ≠ Cell.claimed ∧ (r = r0 ∨ c = c0) then some (r, c) else none)
        (by
          intro r c c' m hc hc'
          simp only [Option.ite_none_right_eq_some, Option.some.injEq] at hc hc'
          have h3 : (r, c) = ((r, c') : Move) := hc.2.trans hc'.2.symm
          exact (Prod.ext_iff.mp h3).2)
        (by
          intro r c m hc
          simp only [Option.ite_none_right_eq_some, Option.some.injEq] at hc
          simp [← hc.2])

/-- Python `max` returns the first maximal element: the list splits around the
result into a strictly-smaller prefix and a no-larger suffix. -/
theorem pyMaxGo_first {α β : Type} [LinearOrder β] (key : α → β) (b : α) (l : List α) :
    ∃ l₁ l₂, b :: l = l₁ ++ pyMaxGo key b l :: l₂ ∧
      (∀ x ∈ l₁, key x < key (pyMaxGo key b l)) ∧
      (∀ x ∈ l₂, key x ≤ key (pyMaxGo key b l)) := by
  induction l generalizing b with
  | nil => exact ⟨[], [], by simp [pyMaxGo], by simp, by simp⟩
  | cons y ys ih =>
      simp only [pyMaxGo]
      by_cases h : key b < key y
      · simp only [h, if_true]
        obtain ⟨l₁, l₂, he, h₁, h₂⟩ := ih y
        refine ⟨b :: l₁, l₂, by simp [he], ?_, h₂⟩
        intro x hx
        rcases List.mem_cons.mp hx with rfl | hx
        · exact lt_of_lt_of_le h (pyMaxGo_le key y ys y (by simp))
        · exact h₁ x hx
      · simp only [h, if_false]
        obtain ⟨l₁, l₂, he, h₁, h₂⟩ := ih b
        cases l₁ with
        | nil =>
            simp only [List.nil_append, List.cons.injEq] at he
            obtain ⟨hb, hys⟩ := he
            refine ⟨[], y :: ys, by rw [List.nil_append, ← hb], by simp, ?_⟩
            intro x hx
            rcases List.mem_cons.mp hx with hxy | hx
            · subst hxy
              rw [← hb]; exact le_of_not_lt h
            · refine h₂ x ?_
              rw [← hys]; exact hx
        | cons z l₁' =>
            simp only [List.cons_append, List.cons.injEq] at he
            obtain ⟨hb, hys⟩ := he
            refine ⟨b :: y :: l₁', l₂, ?_, ?_, h₂⟩
            · simp only [List.cons_append]
              conv_lhs => rw [hys]
            intro x hx
            rcases List.mem_cons.mp hx with hxb | hx
            · subst hxb
              exact h₁ x (by simp [hb])
            · rcases List.mem_cons.mp hx with hxy | hx
              · subst hxy
                exact lt_of_le_of_lt (le_of_not_lt h) (h₁ b (by simp [hb]))
              · exact h₁ x (by simp [hx])


theorem toInternal_getElem? (b : CBoard) (r : ℕ) :
    (toInternal b)[r]? = (b[r]?).map (List.map Cell.toInternal) := by
  simp [toInternal, List.getElem?_map]

theorem cellI_toInternal (b : CBoard) (r c : ℕ) :
    cellI (toInternal b) r c = (cellAt b r c).toInternal := by
  unfold cellI cellAt
  rw [toInternal_getElem?]
  cases hb : b[r]? with
  | none => simp [Cell.toInternal]
  | some row =>
      simp only [Option.map_some, Option.getD_some, List.getElem?_map]
      cases hc : row[c]? with
      | none => simp [hc, Cell.toInternal]
      | some x => simp [hc]

theorem toInternal_length (b : CBoard) : (toInternal b).length = b.length := by
  simp [toInternal]

theorem toInternal_row_length (b : CBoard) (r : ℕ) :
    ((toInternal b)[r]?.getD []).length = (b[r]?.getD []).length := by
  rw [toInternal_getElem?]
  cases hb : b[r]? with
  | none => simp
  | some row => simp

theorem mem_MCTS_avail_none (board : IBoard) (m : Move) :
    m ∈ MCTSNode.get_available_moves board none ↔
      m.1 < board.length ∧ m.2 < (board[m.1]?.getD []).length ∧
        cellI board m.1 m.2 ≠ 0 := by
  obtain ⟨mr, mc⟩ := m
  simp only [MCTSNode.get_available_moves, List.mem_flatMap, List.mem_filterMap,
    List.mem_range, Option.ite_none_right_eq_some, Option.some.injEq, Prod.mk.injEq]
  constructor
  · rintro ⟨r, hr, c, hc, ⟨hnz, rfl, rfl⟩⟩
    exact ⟨hr, hc, hnz⟩
  · rintro ⟨hr, hc, hnz⟩
    exact ⟨mr, hr, mc, hc, hnz, rfl, rfl⟩

theorem mem_MCTS_avail_some (board : IBoard) (lr lc : ℕ) (m : Move) :
    m ∈ MCTSNode.get_available_moves board (some (lr, lc)) ↔
      ((m.1 = lr ∧ m.2 < (board[lr]?.getD []).length ∧ cellI board lr m.2 ≠ 0) ∨
       (m.1 ≠ lr ∧ m.1 < board.length ∧ m.2 = lc ∧ cellI board m.1 lc ≠ 0)) := by
  obtain ⟨mr, mc⟩ := m
  simp only [MCTSNode.get_available_moves, List.mem_append, List.mem_filterMap,
    List.mem_range, Option.ite_none_right_eq_some, Option.some.injEq, Prod.mk.injEq]
  constructor
  · rintro (⟨c, hc, hnz, rfl, rfl⟩ | ⟨r, hr, ⟨hne, hnz⟩, rfl, rfl⟩)
    · exact Or.inl ⟨rfl, hc, hnz⟩
    · exact Or.inr ⟨hne, hr, rfl, hnz⟩
  · rintro (⟨rfl, hc, hnz⟩ | ⟨hne, hr, rfl, hnz⟩)
    · exact Or.inl ⟨mc, hc, hnz, rfl, rfl⟩
    · exact Or.inr ⟨mr, hr, ⟨hne, hnz⟩, rfl, rfl⟩

theorem nodup_MCTS_avail (board : IBoard) (lm : Option Move) :
    (MCTSNode.get_available_moves board lm).Nodup := by
  cases lm with
  | none =>
      rw [MCTSNode.get_available_moves, List.nodup_flatMap]
      constructor
      · intro r _
        refine List.Nodup.filterMap ?_ (List.nodup_range _)
        intro c c' q hc hc'
        simp only [Option.mem_def, Option.ite_none_right_eq_some,
          Option.some.injEq] at hc hc'
        have h3 : ((r, c) : Move) = (r, c') := hc.2.trans hc'.2.symm
        exact (Prod.ext_iff.mp h3).2
      · refine List.Pairwise.imp ?_ (List.pairwise_lt_range _)
        intro r r' hlt q hq hq'
        simp only [List.mem_filterMap, List.mem_range,
          Option.ite_none_right_eq_some, Option.some.injEq] at hq hq'
        obtain ⟨c, _, _, hc⟩ := hq
        obtain ⟨c', _, _, hc'⟩ := hq'
        have h1 : q.1 = r := by rw [← hc]
        have h2 : q.1 = r' := by rw [← hc']
        omega
  | some p =>
      obtain ⟨lr, lc⟩ := p
      rw [MCTSNode.get_available_moves]
      refine List.Nodup.append ?_ ?_ ?_
      · refine List.Nodup.filterMap ?_ (List.nodup_range _)
        intro c c' q hc hc'
        simp only [Option.mem_def, Option.ite_none_right_eq_some,
          Option.some.injEq] at hc hc'
        have h3 : ((lr, c) : Move) = (lr, c') := hc.2.trans hc'.2.symm
        exact (Prod.ext_iff.mp h3).2
      · refine List.Nodup.filterMap ?_ (List.nodup_range _)
        intro r r' q hr hr'
        simp only [Option.mem_def, Option.ite_none_right_eq_some,
          Option.some.injEq] at hr hr'
        have h3 : ((r, lc) : Move) = (r', lc) := hr.2.trans hr'.2.symm
        exact (Prod.ext_iff.mp h3).1
      · intro q hq hq'
        simp only [List.mem_filterMap, List.mem_range,
          Option.ite_none_right_eq_some, Option.some.injEq] at hq hq'
        obtain ⟨c, _, _, hc⟩ := hq
        obtain ⟨r, _, ⟨hne, _⟩, hr⟩ := hq'
        have h1 : q.1 = lr := by rw [← hc]
        have h2 : q.1 = r := by rw [← hr]
        omega

theorem AB_avail_eq_MCTS (n : ABNode) :
    n.get_available_moves = MCTSNode.get_available_moves n.board n.last_move := by
  cases hl : n.last_move with
  | none => simp [ABNode.get_available_moves, MCTSNode.get_available_moves, hl]
  | some p =>
      obtain ⟨lr, lc⟩ := p
      simp [ABNode.get_available_moves, MCTSNode.get_available_moves, hl]

theorem cons_eraseIdx_perm {α : Type} [DecidableEq α] (l : List α) (i : ℕ)
    (hi : i < l.length) : (l[i] :: l.eraseIdx i).Perm l := by
  have h1 := List.perm_cons_erase (List.getElem_mem hi)
  have h2 := List.erase_getElem hi
  exact ((h2.cons _).symm.trans h1.symm)

theorem permuteIdxAux_perm {α : Type} [DecidableEq α] :
    ∀ (fuel k : ℕ) (l : List α), (permuteIdxAux fuel k l).Perm l
  | 0, _, _ => .refl _
  | fuel + 1, k, [] => by simp [permuteIdxAux]
  | fuel + 1, k, a :: t => by
      have hi : k % (a :: t).length < (a :: t).length :=
        Nat.mod_lt _ (by simp)
      have hgetD : (a :: t).getD (k % (a :: t).length) a
          = (a :: t)[k % (a :: t).length] := by
        rw [List.getD_eq_getElem?_getD, List.getElem?_eq_getElem hi]
        rfl
      show ((a :: t).getD (k % (a :: t).length) a ::
        permuteIdxAux fuel (k / (a :: t).length)
          ((a :: t).eraseIdx (k % (a :: t).length))).Perm (a :: t)
      rw [hgetD]
      exact ((permuteIdxAux_perm fuel _ _).cons _).trans
        (cons_eraseIdx_perm _ _ hi)

theorem permuteIdx_perm {α : Type} [DecidableEq α] (k : ℕ) (l : List α) :
    (permuteIdx k l).Perm l :=
  permuteIdxAux_perm l.length k l

theorem MCTSNode.init_data (g : ℕ → ℕ) (board : IBoard) (lm : Option Move)
    (pt : ℕ) (mv : Option Move) (sc : ℕ × ℕ) (ctr : ℕ) :
    ((MCTSNode.init g board lm pt mv sc ctr).1.data.board = board) ∧
    ((MCTSNode.init g board lm pt mv sc ctr).1.data.last_move = lm) ∧
    ((MCTSNode.init g board lm pt mv sc ctr).1.data.move = mv) ∧
    ((MCTSNode.init g board lm pt mv sc ctr).1.children = []) := by
  refine ⟨rfl, rfl, rfl, rfl⟩

theorem MCTSNode.init_untried_perm (g : ℕ → ℕ) (board : IBoard)
    (lm : Option Move) (pt : ℕ) (mv : Option Move) (sc : ℕ × ℕ) (ctr : ℕ) :
    ((MCTSNode.init g board lm pt mv sc ctr).1.data.untried_actions).Perm
      (MCTSNode.get_available_moves board lm) := by
  show (pySortStable _ (permuteIdx (g ctr)
    (MCTSNode.get_available_moves board lm))).Perm _
  exact (pySortStable_perm _ _).trans (permuteIdx_perm _ _)

theorem MCTSTree.children_ne_not_terminal (t : MCTSTree)
    (h : t.children ≠ []) : t.is_terminal = false := by
  have hc : t.children.isEmpty = false := by
    cases hcc : t.children with
    | nil => exact absurd hcc h
    | cons a l => rfl
  simp [MCTSTree.is_terminal, hc]

theorem getLastD_mem_of_ne_nil {α : Type} (l : List α) (d : α) (h : l ≠ []) :
    l.getLastD d ∈ l := by
  rw [List.getLastD_eq_getLast?]
  cases hg : l.getLast? with
  | none => exact absurd (List.getLast?_eq_none_iff.mp hg) h
  | some a => simpa using List.mem_of_getLast?_eq_some hg

theorem MCTSNode.best_child_scan_lt (flog fsqrt : ℚ → ℚ) (logn : ℚ) :
    ∀ (l : List MCTSTree) (i : ℕ) (best : Option (ℕ × ℚ)) (j : ℕ),
      (∀ p, best = some p → p.1 < i) →
      MCTSNode.best_child_scan flog fsqrt logn l i best = some j →
      j < i + l.length := by
  intro l
  induction l with
  | nil =>
      intro i best j hb hs
      cases best with
      | none => simp [MCTSNode.best_child_scan] at hs
      | some p =>
          simp only [MCTSNode.best_child_scan] at hs
          have hs2 : p.1 = j := by simpa using hs
          have h1 := hb p rfl
          simp only [List.length_nil]
          omega
  | cons c cs ih =>
      intro i best j hb hs
      simp only [MCTSNode.best_child_scan] at hs
      split at hs
      · simp only [Option.some.injEq] at hs
        subst hs
        simp only [List.length_cons]
        omega
      · cases best with
        | none =>
            dsimp only at hs
            have hres := ih (i + 1) _ j
              (fun p hp => (Option.some.inj hp) ▸ (Nat.lt_succ_self i)) hs
            simp only [List.length_cons]
            omega
        | some b =>
            dsimp only at hs
            split at hs
            · have hres := ih (i + 1) _ j
                (fun p hp => (Option.some.inj hp) ▸ (Nat.lt_succ_self i)) hs
              simp only [List.length_cons]
              omega
            · have hres := ih (i + 1) _ j
                (fun p hp => Nat.lt_succ_of_lt (hb p hp)) hs
              simp only [List.length_cons]
              omega

theorem MCTSNode.best_child_lt (flog fsqrt : ℚ → ℚ) (t : MCTSTree) (i : ℕ)
    (h : MCTSNode.best_child flog fsqrt t = some i) : i < t.children.length := by
  have := MCTSNode.best_child_scan_lt flog fsqrt (flog (t.data.visits : ℚ))
    t.children 0 none i (fun p hp => by cases hp) h
  omega

theorem fully_expanded_children_ne (t : MCTSTree)
    (hterm : t.is_terminal = false) (hfull : t.is_fully_expanded = true) :
    t.children ≠ [] := by
  simp only [MCTSTree.is_terminal, MCTSTree.is_fully_expanded] at hterm hfull
  rw [hfull, Bool.true_and] at hterm
  intro habs
  rw [habs] at hterm
  simp at hterm

theorem not_fully_expanded_untried_ne (t : MCTSTree)
    (hfull : t.is_fully_expanded = false) : t.data.untried_actions ≠ [] := by
  simp only [MCTSTree.is_fully_expanded] at hfull
  intro habs
  rw [habs] at hfull
  simp at hfull

theorem MCTSStrategy.iterStep_shape (flog fsqrt : ℚ → ℚ) (g : ℕ → ℕ) (ts : ℚ) :
    ∀ (fuel : ℕ) (t : MCTSTree) (ctr : ℕ),
      ((MCTSStrategy.iterStep flog fsqrt g ts fuel t ctr).1.data.board
          = t.data.board ∧
        (MCTSStrategy.iterStep flog fsqrt g ts fuel t ctr).1.data.last_move
          = t.data.last_move ∧
        (MCTSStrategy.iterStep flog fsqrt g ts fuel t ctr).1.data.move
          = t.data.move) ∧
      (∀ a ∈ (MCTSStrategy.iterStep flog fsqrt g ts fuel t ctr).1.data.untried_actions,
          a ∈ t.data.untried_actions) ∧
      (∀ c' ∈ (MCTSStrategy.iterStep flog fsqrt g ts fuel t ctr).1.children,
          (∃ c ∈ t.children, c'.data.move = c.data.move) ∨
          (∃ a ∈ t.data.untried_actions, c'.data.move = some a)) ∧
      (1 ≤ fuel → t.is_terminal = false →
        (MCTSStrategy.iterStep flog fsqrt g ts fuel t ctr).1.children ≠ []) := by
  intro fuel
  induction fuel with
  | zero =>
      intro t ctr
      refine ⟨⟨rfl, rfl, rfl⟩, fun a ha => ha,
        fun c' hc' => Or.inl ⟨c', hc', rfl⟩, ?_⟩
      intro h1
      omega
  | succ fuel ih =>
      intro t ctr
      simp only [MCTSStrategy.iterStep]
      by_cases hcond : t.is_terminal = false ∧ t.is_fully_expanded = true
      · rw [if_pos hcond]
        have hchild_ne := fully_expanded_children_ne t hcond.1 hcond.2
        cases hbc : MCTSNode.best_child flog fsqrt t with
        | none =>
            refine ⟨⟨rfl, rfl, rfl⟩, fun a ha => ha,
              fun c' hc' => Or.inl ⟨c', hc', rfl⟩, ?_⟩
            intro _ _
            exact hchild_ne
        | some i =>
            dsimp only
            have hlt := MCTSNode.best_child_lt flog fsqrt t i hbc
            obtain ⟨⟨ihb, ihl, ihm⟩, ihu, ihc, ihn⟩ :=
              ih (t.children.getD i t) ctr
            have hgd : t.children.getD i t = t.children.get ⟨i, hlt⟩ := by
              rw [List.getD_eq_getElem?_getD, List.getElem?_eq_getElem hlt]
              rfl
            refine ⟨⟨rfl, rfl, rfl⟩, fun a ha => ha, ?_, ?_⟩
            · intro c' hc'
              rcases List.mem_or_eq_of_mem_set hc' with hmem | heq
              · exact Or.inl ⟨c', hmem, rfl⟩
              · subst heq
                refine Or.inl ⟨t.children.getD i t, ?_, ihm⟩
                rw [hgd]
                exact List.getElem_mem hlt
            · intro _ _ habs
              simp only [MCTSTree.children] at habs
              have hlen := congrArg List.length habs
              rw [List.length_set] at hlen
              exact hchild_ne (List.length_eq_zero.mp hlen)
      · rw [if_neg hcond]
        by_cases hterm : t.is_terminal = false
        · rw [if_pos hterm]
          have hfull : t.is_fully_expanded = false := by
            cases hfe : t.is_fully_expanded with
            | false => rfl
            | true => exact absurd ⟨hterm, hfe⟩ hcond
          have huntried := not_fully_expanded_untried_ne t hfull
          refine ⟨⟨rfl, rfl, rfl⟩, ?_, ?_, ?_⟩
          · intro a ha
            exact (List.dropLast_sublist _).subset ha
          · intro c' hc'
            rcases List.mem_append.mp hc' with hmem | heq
            · exact Or.inl ⟨c', hmem, rfl⟩
            · have heq2 : c' = _ := List.mem_singleton.mp heq
              subst heq2
              exact Or.inr ⟨t.data.untried_actions.getLastD (0, 0),
                getLastD_mem_of_ne_nil _ _ huntried, rfl⟩
          · intro _ _ habs
            simp only [MCTSTree.children] at habs
            simp at habs
        · rw [if_neg hterm]
          refine ⟨⟨rfl, rfl, rfl⟩, fun a ha => ha,
            fun c' hc' => Or.inl ⟨c', hc', rfl⟩, ?_⟩
          intro _ habs
          exact absurd habs hterm

theorem MCTSStrategy.search_loop_inv (flog fsqrt : ℚ → ℚ) (g : ℕ → ℕ) (ts : ℚ)
    (fuel : ℕ) (U : List Move) :
    ∀ (k : ℕ) (t : MCTSTree) (ctr : ℕ),
      (∀ a ∈ t.data.untried_actions, a ∈ U) →
      (∀ c ∈ t.children, ∃ a ∈ U, c.data.move = some a) →
      ((∀ a ∈ (MCTSStrategy.search_loop flog fsqrt g ts fuel k t ctr).1.data.untried_actions,
          a ∈ U) ∧
       (∀ c ∈ (MCTSStrategy.search_loop flog fsqrt g ts fuel k t ctr).1.children,
          ∃ a ∈ U, c.data.move = some a)) := by
  intro k
  induction k with
  | zero =>
      intro t ctr hu hc
      exact ⟨hu, hc⟩
  | succ k ih =>
      intro t ctr hu hc
      simp only [MCTSStrategy.search_loop]
      obtain ⟨_, ihu, ihc, _⟩ := MCTSStrategy.iterStep_shape flog fsqrt g ts fuel t ctr
      refine ih _ _ ?_ ?_
      · intro a ha
        exact hu _ (ihu a ha)
      · intro c hcm
        rcases ihc c hcm with ⟨c0, hc0, he⟩ | ⟨a, haU, he⟩
        · obtain ⟨a, haU, he2⟩ := hc c0 hc0
          exact ⟨a, haU, he.trans he2⟩
        · exact ⟨a, hu a haU, he⟩

theorem MCTSStrategy.search_loop_children_ne (flog fsqrt : ℚ → ℚ) (g : ℕ → ℕ)
    (ts : ℚ) (fuel : ℕ) :
    ∀ (k : ℕ) (t : MCTSTree) (ctr : ℕ),
      1 ≤ fuel → 1 ≤ k → t.is_terminal = false →
      (MCTSStrategy.search_loop flog fsqrt g ts fuel k t ctr).1.children ≠ [] := by
  intro k
  induction k with
  | zero =>
      intro t ctr _ hk _
      omega
  | succ k ih =>
      intro t ctr hfuel _ hterm
      simp only [MCTSStrategy.search_loop]
      obtain ⟨_, _, _, hne⟩ := MCTSStrategy.iterStep_shape flog fsqrt g ts fuel t ctr
      have hstep := hne hfuel hterm
      by_cases hk : 1 ≤ k
      · exact ih _ _ hfuel hk (MCTSTree.children_ne_not_terminal _ hstep)
      · have hk0 : k = 0 := by omega
        subst hk0
        simpa [MCTSStrategy.search_loop] using hstep

theorem MCTSStrategy.decide_mem (flog fsqrt : ℚ → ℚ) (g : ℕ → ℕ) (iters : ℕ)
    (ts : ℚ) (bI : IBoard) (lm : Option Move) (pid : ℕ) (sc : ℕ × ℕ) (ctr : ℕ)
    (m : Move)
    (h : MCTSStrategy.decide_from_root flog fsqrt g iters ts
      (MCTSNode.init g bI lm pid none sc ctr) = some m) :
    m ∈ MCTSNode.get_available_moves bI lm := by
  have hperm := MCTSNode.init_untried_perm g bI lm pid none sc ctr
  set rootmk := MCTSNode.init g bI lm pid none sc ctr with hroot
  have hch0 : rootmk.1.children = [] := rfl
  simp only [MCTSStrategy.decide_from_root] at h
  split at h
  · exact absurd h (by simp)
  · split at h
    · rename_i hne hlen
      have hm := Option.some.inj h
      have hl : 0 < rootmk.1.data.untried_actions.length := by
        rw [hlen]
        omega
      have h0 : rootmk.1.data.untried_actions.getD 0 (0, 0) ∈
          rootmk.1.data.untried_actions := by
        rw [List.getD_eq_getElem?_getD, List.getElem?_eq_getElem hl]
        simpa using List.getElem_mem hl
      rw [← hm]
      exact hperm.subset h0
    · cases hpm : pyMax (fun c : MCTSTree => c.data.visits)
          ((MCTSStrategy.search_loop flog fsqrt g ts (iters + 1) iters
            rootmk.1 rootmk.2).1.children) with
      | none =>
          rw [hpm] at h
          exact absurd h (by simp)
      | some bc =>
          rw [hpm] at h
          dsimp only at h
          have hmem := pyMax_mem _ _ _ hpm
          have hinv := MCTSStrategy.search_loop_inv flog fsqrt g ts (iters + 1)
            rootmk.1.data.untried_actions iters rootmk.1 rootmk.2
            (fun a ha => ha)
            (fun c hc => by
              rw [hch0] at hc
              exact absurd hc (List.not_mem_nil c))
          obtain ⟨a, haU, he⟩ := hinv.2 bc hmem
          have ham : a = m := Option.some.inj (he.symm.trans h)
          rw [← ham]
          exact hperm.subset haU

theorem MCTSStrategy.decide_none_iff (flog fsqrt : ℚ → ℚ) (g : ℕ → ℕ)
    (iters : ℕ) (ts : ℚ) (bI : IBoard) (lm : Option Move) (pid : ℕ)
    (sc : ℕ × ℕ) (ctr : ℕ) (hiters : 1 ≤ iters) :
    (MCTSStrategy.decide_from_root flog fsqrt g iters ts
      (MCTSNode.init g bI lm pid none sc ctr) = none ↔
     MCTSNode.get_available_moves bI lm = []) := by
  have hperm := MCTSNode.init_untried_perm g bI lm pid none sc ctr
  set rootmk := MCTSNode.init g bI lm pid none sc ctr with hroot
  have hch0 : rootmk.1.children = [] := rfl
  constructor
  · intro h
    by_contra havail
    have huntried : rootmk.1.data.untried_actions ≠ [] := by
      intro habs
      exact havail (List.Perm.nil_eq (habs ▸ hperm)).symm
    simp only [MCTSStrategy.decide_from_root] at h
    rw [if_neg (by simpa using huntried)] at h
    by_cases hlen : rootmk.1.data.untried_actions.length = 1
    · rw [if_pos hlen] at h
      exact absurd h (by simp)
    · rw [if_neg hlen] at h
      have hterm : rootmk.1.is_terminal = false := by
        simp only [MCTSTree.is_terminal]
        have : rootmk.1.data.untried_actions.isEmpty = false := by
          simpa using huntried
        rw [this]
        rfl
      have hne := MCTSStrategy.search_loop_children_ne flog fsqrt g ts
        (iters + 1) iters rootmk.1 rootmk.2 (by omega) hiters hterm
      obtain ⟨bc, hbc⟩ := pyMax_isSome (fun c : MCTSTree => c.data.visits) _ hne
      rw [hbc] at h
      dsimp only at h
      have hinv := MCTSStrategy.search_loop_inv flog fsqrt g ts (iters + 1)
        rootmk.1.data.untried_actions iters rootmk.1 rootmk.2
        (fun a ha => ha)
        (fun c hc => by
          rw [hch0] at hc
          exact absurd hc (List.not_mem_nil c))
      obtain ⟨a, _, he⟩ := hinv.2 bc (pyMax_mem _ _ _ hbc)
      rw [he] at h
      exact absurd h (by simp)
  · intro h
    have huntried : rootmk.1.data.untried_actions = [] := by
      have := hperm
      rw [h] at this
      exact List.Perm.eq_nil this
    simp only [MCTSStrategy.decide_from_root]
    rw [if_pos (by simp [huntried])]

theorem MCTSStrategy.decide_singleton (flog fsqrt : ℚ → ℚ) (g : ℕ → ℕ)
    (iters : ℕ) (ts : ℚ) (bI : IBoard) (lm : Option Move) (pid : ℕ)
    (sc : ℕ × ℕ) (ctr : ℕ) (a : Move)
    (h : MCTSNode.get_available_moves bI lm = [a]) :
    MCTSStrategy.decide_from_root flog fsqrt g iters ts
      (MCTSNode.init g bI lm pid none sc ctr) = some a := by
  have hperm := MCTSNode.init_untried_perm g bI lm pid none sc ctr
  set rootmk := MCTSNode.init g bI lm pid none sc ctr with hroot
  rw [h] at hperm
  have huntried : rootmk.1.data.untried_actions = [a] :=
    List.perm_singleton.mp hperm
  simp only [MCTSStrategy.decide_from_root]
  rw [if_neg (by simp [huntried]), if_pos (by simp [huntried])]
  simp [huntried]

theorem MCTSStrategy.move_mem (flog fsqrt : ℚ → ℚ) (g : ℕ → ℕ) (iters : ℕ)
    (b : CBoard) (lm : Option Move) (sc : ℕ × ℕ) (m : Move)
    (h : MCTSStrategy.move flog fsqrt g iters b lm sc = some m) :
    m ∈ MCTSNode.get_available_moves (toInternal b) lm :=
  MCTSStrategy.decide_mem flog fsqrt g iters _ (toInternal b) lm _ sc 0 m h

theorem MCTSStrategy.move_none_iff (flog fsqrt : ℚ → ℚ) (g : ℕ → ℕ)
    (iters : ℕ) (b : CBoard) (lm : Option Move) (sc : ℕ × ℕ)
    (hiters : 1 ≤ iters) :
    (MCTSStrategy.move flog fsqrt g iters b lm sc = none ↔
     MCTSNode.get_available_moves (toInternal b) lm = []) :=
  MCTSStrategy.decide_none_iff flog fsqrt g iters _ (toInternal b) lm _ sc 0 hiters

theorem MCTSStrategy.move_singleton (flog fsqrt : ℚ → ℚ) (g : ℕ → ℕ)
    (iters : ℕ) (b : CBoard) (lm : Option Move) (sc : ℕ × ℕ) (a : Move)
    (h : MCTSNode.get_available_moves (toInternal b) lm = [a]) :
    MCTSStrategy.move flog fsqrt g iters b lm sc = some a :=
  MCTSStrategy.decide_singleton flog fsqrt g iters _ (toInternal b) lm _ sc 0 a h

theorem squareB_row_length (b : CBoard) (hsq : squareB b = true) (r : ℕ)
    (hr : r < b.length) : (b[r]?.getD []).length = b.length := by
  simp only [squareB, List.all_eq_true] at hsq
  have h2 := hsq _ (List.getElem_mem hr)
  rw [List.getElem?_eq_getElem hr]
  simpa using h2

theorem allPos_cell (b : CBoard) (hpos : allPosB b = true) (r c v : ℕ)
    (h : cellAt b r c = Cell.num v) : 0 < v := by
  unfold cellAt at h
  cases hb : b[r]? with
  | none =>
      rw [hb] at h
      simp at h
  | some row =>
      rw [hb] at h
      simp only [Option.getD_some] at h
      cases hc : row[c]? with
      | none =>
          rw [hc] at h
          simp at h
      | some cell =>
          rw [hc] at h
          simp only [Option.getD_some] at h
          subst h
          simp only [allPosB, List.all_eq_true] at hpos
          have hrow : row ∈ b := List.getElem?_mem hb
          have hcell : Cell.num v ∈ row := List.getElem?_mem hc
          have h3 := hpos row hrow (Cell.num v) hcell
          simpa using h3

theorem mem_MCTS_toInternal_iff (b : CBoard) (lm : Option Move)
    (hsq : squareB b = true) (hlm : lmOkB b lm = true) (m : Move) :
    m ∈ MCTSNode.get_available_moves (toInternal b) lm ↔
      (m ∈ availableCellsRM b lm ∧ cellValN b m.1 m.2 ≠ 0) := by
  have hval : ∀ r c : ℕ, cellI (toInternal b) r c = cellValN b r c := by
    intro r c
    rw [cellI_toInternal]
    rfl
  have hclaimed : ∀ r c : ℕ, cellValN b r c ≠ 0 → cellAt b r c ≠ Cell.claimed := by
    intro r c hv habs
    apply hv
    rw [cellValN, habs]
    rfl
  obtain ⟨mr, mc⟩ := m
  cases lm with
  | none =>
      rw [mem_MCTS_avail_none, mem_availableCellsRM]
      rw [toInternal_length, toInternal_row_length, hval]
      constructor
      · rintro ⟨h1, h2, h3⟩
        have hrl := squareB_row_length b hsq mr h1
        rw [hrl] at h2
        exact ⟨⟨h1, h2, hclaimed _ _ h3, fun r0 c0 hc => by cases hc⟩, h3⟩
      · rintro ⟨⟨h1, h2, _, _⟩, h3⟩
        have hrl := squareB_row_length b hsq mr h1
        rw [hrl]
        exact ⟨h1, h2, h3⟩
  | some p =>
      obtain ⟨r0, c0⟩ := p
      simp only [lmOkB, Bool.and_eq_true, decide_eq_true_eq] at hlm
      obtain ⟨hr0, hc0⟩ := hlm
      rw [mem_MCTS_avail_some, mem_availableCellsRM]
      rw [toInternal_length, toInternal_row_length, hval, hval]
      have hrl0 := squareB_row_length b hsq r0 hr0
      constructor
      · rintro (⟨h1, h2, h3⟩ | ⟨h1, h2, h3, h4⟩)
        · simp only at h1 h2 h3
          subst h1
          rw [hrl0] at h2
          exact ⟨⟨hr0, h2, hclaimed _ _ h3, fun r0' c0' hc => by
            obtain ⟨he1, he2⟩ := Prod.mk.injEq .. ▸ Option.some.inj hc
            exact Or.inl he1⟩, h3⟩
        · simp only at h1 h2 h3 h4
          subst h3
          exact ⟨⟨h2, hc0, hclaimed _ _ h4, fun r0' c0' hc => by
            obtain ⟨he1, he2⟩ := Prod.mk.injEq .. ▸ Option.some.inj hc
            exact Or.inr he2⟩, h4⟩
      · rintro ⟨⟨h1, h2, _, h4⟩, h5⟩
        simp only at h1 h2 h4 h5
        have hcond := h4 r0 c0 rfl
        by_cases hm1 : mr = r0
        · left
          subst hm1
          rw [hrl0]
          exact ⟨rfl, h2, h5⟩
        · right
          rcases hcond with he | he
          · exact absurd he hm1
          · subst he
            exact ⟨hm1, h1, rfl, h5⟩

theorem mem_MCTS_toInternal_pos (b : CBoard) (lm : Option Move)
    (hsq : squareB b = true) (hlm : lmOkB b lm = true)
    (hpos : allPosB b = true) (m : Move) :
    m ∈ MCTSNode.get_available_moves (toInternal b) lm ↔
      m ∈ availableCellsRM b lm := by
  rw [mem_MCTS_toInternal_iff b lm hsq hlm]
  constructor
  · exact fun h => h.1
  · intro h
    refine ⟨h, ?_⟩
    have hcl := (mem_availableCellsRM b lm m).mp h
    cases hc : cellAt b m.1 m.2 with
    | claimed => exact absurd hc hcl.2.2.1
    | num v =>
        have hv := allPos_cell b hpos m.1 m.2 v hc
        rw [cellValN, hc]
        simp only [Cell.toInternal]
        omega

theorem MCTS_avail_nil_iff_pos (b : CBoard) (lm : Option Move)
    (hsq : squareB b = true) (hlm : lmOkB b lm = true)
    (hpos : allPosB b = true) :
    (MCTSNode.get_available_moves (toInternal b) lm = [] ↔
     availableCellsRM b lm = []) := by
  rw [List.eq_nil_iff_forall_not_mem, List.eq_nil_iff_forall_not_mem]
  constructor
  · intro h m hm
    exact h m ((mem_MCTS_toInternal_pos b lm hsq hlm hpos m).mpr hm)
  · intro h m hm
    exact h m ((mem_MCTS_toInternal_pos b lm hsq hlm hpos m).mp hm)

theorem MCTS_avail_singleton_pos (b : CBoard) (lm : Option Move)
    (hsq : squareB b = true) (hlm : lmOkB b lm = true)
    (hpos : allPosB b = true) (a : Move)
    (h : availableCellsRM b lm = [a]) :
    MCTSNode.get_available_moves (toInternal b) lm = [a] := by
  apply List.perm_singleton.mp
  rw [← h]
  apply (List.perm_ext_iff_of_nodup (nodup_MCTS_avail _ _)
    (nodup_availableCellsRM _ _)).mpr
  intro x
  exact mem_MCTS_toInternal_pos b lm hsq hlm hpos x

theorem GreedyStrategy.greedy_move_none_iff (matrix : CBoard) (lm : Option Move)
    (sc : ℕ × ℕ) :
    GreedyStrategy.move matrix lm sc = none ↔ availableCellsRM matrix lm = [] := by
  simp only [GreedyStrategy.move]
  cases havail : availableCellsRM matrix lm with
  | nil => simp
  | cons x xs => simp [pyMax]

theorem GreedyStrategy.move_eq_pyMax (matrix : CBoard) (lm : Option Move)
    (sc : ℕ × ℕ) (h : availableCellsRM matrix lm ≠ []) :
    GreedyStrategy.move matrix lm sc =
      pyMax (fun pos => ((cellValN matrix pos.1 pos.2 : ℕ) : ℚ))
        (availableCellsRM matrix lm) := by
  simp only [GreedyStrategy.move]
  rw [if_neg (by simpa using h)]

theorem RandomStrategy.move_spec (k : ℕ) (matrix : CBoard) (lm : Option Move)
    (sc : ℕ × ℕ) :
    (RandomStrategy.move k matrix lm sc = none ↔ availableCellsRM matrix lm = []) ∧
    (∀ m, RandomStrategy.move k matrix lm sc = some m →
      m ∈ availableCellsRM matrix lm) := by
  simp only [RandomStrategy.move]
  cases havail : availableCellsRM matrix lm with
  | nil => simp
  | cons x xs =>
      refine ⟨by simp, ?_⟩
      intro m hm
      simp only [List.isEmpty_cons, Bool.false_eq_true, if_false,
        Option.some.injEq] at hm
      rw [← hm]
      have hlt : k % (x :: xs).length < (x :: xs).length :=
        Nat.mod_lt _ (by simp)
      rw [List.getD_eq_getElem?_getD, List.getElem?_eq_getElem hlt]
      simpa using List.getElem_mem hlt

theorem sc_valid_moves_none_eq (matrix : CBoard) :
    SafeChoiceStrategy.valid_moves matrix none = availableCellsRM matrix none := rfl

theorem mem_sc_valid_moves (matrix : CBoard) (lm : Option Move)
    (hlm : lmOkB matrix lm = true) (m : Move) :
    m ∈ SafeChoiceStrategy.valid_moves matrix lm ↔
      m ∈ availableCellsRM matrix lm := by
  cases lm with
  | none => rw [sc_valid_moves_none_eq]
  | some p =>
      obtain ⟨r0, c0⟩ := p
      simp only [lmOkB, Bool.and_eq_true, decide_eq_true_eq] at hlm
      obtain ⟨hr0, hc0⟩ := hlm
      obtain ⟨mr, mc⟩ := m
      rw [mem_availableCellsRM]
      simp only [SafeChoiceStrategy.valid_moves, List.mem_append,
        List.mem_filterMap, List.mem_range, Option.ite_none_right_eq_some,
        Option.some.injEq, Prod.mk.injEq]
      constructor
      · rintro (⟨j, hj, hfree, he1, he2⟩ | ⟨i, hi, ⟨hfree, hseen⟩, he1, he2⟩)
        · subst he1
          subst he2
          exact ⟨hr0, hj, hfree, fun a b hab => Or.inl hab.1⟩
        · subst he1
          subst he2
          exact ⟨hi, hc0, hfree, fun a b hab => Or.inr hab.2⟩
      · rintro ⟨h1, h2, h3, h4⟩
        have hcond := h4 r0 c0 ⟨rfl, rfl⟩
        by_cases hm1 : mr = r0
        · subst hm1
          exact Or.inl ⟨mc, h2, h3, rfl, rfl⟩
        · rcases hcond with he | he
          · exact absurd he hm1
          · subst he
            exact Or.inr ⟨mr, h1, ⟨h3, fun hand => hm1 hand.1⟩, rfl, rfl⟩

theorem scan_step_best (alpha beta gamma delta epsilon jitter : ℚ)
    (jr : ℕ → ℚ) (matrix : CBoard)
    (st : (Option Move × Option SCKey) × ℕ) (c : Move) :
    ((SafeChoiceStrategy.scan_step alpha beta gamma delta epsilon jitter jr
        matrix st c).1.1 = st.1.1 ∧
     (SafeChoiceStrategy.scan_step alpha beta gamma delta epsilon jitter jr
        matrix st c).1.2 = st.1.2) ∨
    ((SafeChoiceStrategy.scan_step alpha beta gamma delta epsilon jitter jr
        matrix st c).1.1 = some c ∧
     ∃ kk, (SafeChoiceStrategy.scan_step alpha beta gamma delta epsilon jitter
        jr matrix st c).1.2 = some kk) := by
  have hub : ∀ (best : Option Move) (bk : Option SCKey) (idx : ℕ) (c2 : Move)
      (key : SCKey),
      ((SafeChoiceStrategy.update_best best bk idx c2 key).1.1 = best ∧
       (SafeChoiceStrategy.update_best best bk idx c2 key).1.2 = bk) ∨
      ((SafeChoiceStrategy.update_best best bk idx c2 key).1.1 = some c2 ∧
       (SafeChoiceStrategy.update_best best bk idx c2 key).1.2 = some key) := by
    intro best bk idx c2 key
    cases bk with
    | none => exact Or.inr ⟨rfl, rfl⟩
    | some bk2 =>
        simp only [SafeChoiceStrategy.update_best]
        split
        · exact Or.inr ⟨rfl, rfl⟩
        · exact Or.inl ⟨rfl, rfl⟩
  simp only [SafeChoiceStrategy.scan_step]
  cases hv : SafeChoiceStrategy.cell_value matrix c.1 c.2 with
  | none => exact Or.inl ⟨rfl, rfl⟩
  | some v =>
      dsimp only
      rcases hub st.1.1 st.1.2 st.2 c _ with ⟨h1, h2⟩ | ⟨h1, h2⟩
      · exact Or.inl ⟨h1, h2⟩
      · exact Or.inr ⟨h1, _, h2⟩

theorem scan_fold_mem (alpha beta gamma delta epsilon jitter : ℚ)
    (jr : ℕ → ℚ) (matrix : CBoard) :
    ∀ (l : List Move) (st : (Option Move × Option SCKey) × ℕ),
      ((l.foldl (SafeChoiceStrategy.scan_step alpha beta gamma delta epsilon
          jitter jr matrix) st).1.1 = st.1.1) ∨
      ∃ c ∈ l, (l.foldl (SafeChoiceStrategy.scan_step alpha beta gamma delta
          epsilon jitter jr matrix) st).1.1 = some c := by
  intro l
  induction l with
  | nil => exact fun st => Or.inl rfl
  | cons c cs ih =>
      intro st
      simp only [List.foldl_cons]
      rcases ih (SafeChoiceStrategy.scan_step alpha beta gamma delta epsilon
          jitter jr matrix st c) with h | ⟨c2, hc2, he⟩
      · rcases scan_step_best alpha beta gamma delta epsilon jitter jr matrix
            st c with ⟨h1, _⟩ | ⟨h1, _⟩
        · exact Or.inl (h.trans h1)
        · exact Or.inr ⟨c, by simp, h.trans h1⟩
      · exact Or.inr ⟨c2, by simp [hc2], he⟩

theorem scan_fold_ne_none (alpha beta gamma delta epsilon jitter : ℚ)
    (jr : ℕ → ℚ) (matrix : CBoard) :
    ∀ (l : List Move) (st : (Option Move × Option SCKey) × ℕ),
      (st.1.1 = none ↔ st.1.2 = none) →
      ((∃ c ∈ l, SafeChoiceStrategy.cell_value matrix c.1 c.2 ≠ none) ∨
        st.1.1 ≠ none) →
      (l.foldl (SafeChoiceStrategy.scan_step alpha beta gamma delta epsilon
          jitter jr matrix) st).1.1 ≠ none := by
  intro l
  induction l with
  | nil =>
      intro st _ hv
      rcases hv with ⟨c, hc, _⟩ | hne
      · exact absurd hc (List.not_mem_nil c)
      · exact hne
  | cons c cs ih =>
      intro st hQ hv
      simp only [List.foldl_cons]
      have hQ' : ((SafeChoiceStrategy.scan_step alpha beta gamma delta epsilon
          jitter jr matrix st c).1.1 = none ↔
          (SafeChoiceStrategy.scan_step alpha beta gamma delta epsilon jitter
            jr matrix st c).1.2 = none) := by
        rcases scan_step_best alpha beta gamma delta epsilon jitter jr matrix
            st c with ⟨h1, h2⟩ | ⟨h1, kk, h2⟩
        · rw [h1, h2]
          exact hQ
        · rw [h1, h2]
          simp
      refine ih _ hQ' ?_
      rcases hv with ⟨c0, hc0, hval⟩ | hne
      · rcases List.mem_cons.mp hc0 with hcc | hcs
        · subst hcc
          right
          have hub : ∀ (best : Option Move) (bk : Option SCKey) (idx : ℕ)
              (c2 : Move) (key : SCKey), best ≠ none ∨ bk = none →
              (SafeChoiceStrategy.update_best best bk idx c2 key).1.1 ≠ none := by
            intro best bk idx c2 key hside
            cases bk with
            | none => simp [SafeChoiceStrategy.update_best]
            | some bk2 =>
                simp only [SafeChoiceStrategy.update_best]
                split
                · simp
                · rcases hside with hbn | hbe
                  · exact hbn
                  · cases hbe
          cases hvv : SafeChoiceStrategy.cell_value matrix c0.1 c0.2 with
          | none => exact absurd hvv hval
          | some v =>
              simp only [SafeChoiceStrategy.scan_step]
              rw [hvv]
              dsimp only
              refine hub st.1.1 st.1.2 st.2 c0 _ ?_
              by_cases hbn : st.1.1 = none
              · exact Or.inr (hQ.mp hbn)
              · exact Or.inl hbn
        · exact Or.inl ⟨c0, hcs, hval⟩
      · right
        rcases scan_step_best alpha beta gamma delta epsilon jitter jr matrix
            st c with ⟨h1, _⟩ | ⟨h1, _, _⟩
        · rw [h1]
          exact hne
        · rw [h1]
          simp

theorem availableCellsRM_nil_of_len0 (b : CBoard) (lm : Option Move)
    (h : b.length = 0) : availableCellsRM b lm = [] := by
  cases lm with
  | none =>
      show (List.range b.length).flatMap _ = []
      rw [h]
      rfl
  | some p =>
      obtain ⟨r0, c0⟩ := p
      show (List.range b.length).flatMap _ = []
      rw [h]
      rfl

theorem SafeChoiceStrategy.sc_move_spec (alpha beta gamma delta epsilon : ℚ)
    (jr : ℕ → ℚ) (matrix : CBoard) (lm : Option Move) (sc : ℕ × ℕ)
    (hlm : lmOkB matrix lm = true) :
    (SafeChoiceStrategy.move alpha beta gamma delta epsilon 0 jr matrix lm sc
        = none ↔ availableCellsRM matrix lm = []) ∧
    (∀ m, SafeChoiceStrategy.move alpha beta gamma delta epsilon 0 jr matrix
        lm sc = some m → m ∈ availableCellsRM matrix lm) := by
  simp only [SafeChoiceStrategy.move]
  by_cases hn : matrix.length = 0
  · rw [if_pos hn]
    have hav := availableCellsRM_nil_of_len0 matrix lm hn
    exact ⟨by simp [hav], fun m hm => by cases hm⟩
  · rw [if_neg hn]
    cases hcand : SafeChoiceStrategy.valid_moves matrix lm with
    | nil =>
        rw [if_pos (by simp)]
        have hav : availableCellsRM matrix lm = [] := by
          rw [List.eq_nil_iff_forall_not_mem]
          intro m hm
          have := (mem_sc_valid_moves matrix lm hlm m).mpr hm
          rw [hcand] at this
          exact absurd this (List.not_mem_nil m)
        exact ⟨by simp [hav], fun m hm => by cases hm⟩
    | cons c0 cs =>
        rw [if_neg (by simp)]
        have hmemc0 : c0 ∈ SafeChoiceStrategy.valid_moves matrix lm := by
          rw [hcand]
          simp
        have hc0rm := (mem_sc_valid_moves matrix lm hlm c0).mp hmemc0
        have hfree := ((mem_availableCellsRM matrix lm c0).mp hc0rm).2.2.1
        have hvalc0 : SafeChoiceStrategy.cell_value matrix c0.1 c0.2 ≠ none := by
          rw [SafeChoiceStrategy.cell_value]
          cases hc : cellAt matrix c0.1 c0.2 with
          | claimed => exact absurd hc hfree
          | num v => simp
        have hne := scan_fold_ne_none alpha beta gamma delta epsilon 0 jr
          matrix (c0 :: cs) ((none, none), 0) (by simp)
          (Or.inl ⟨c0, by simp, hvalc0⟩)
        constructor
        · constructor
          · intro habs
            exact absurd habs hne
          · intro hav
            have : c0 ∈ availableCellsRM matrix lm := hc0rm
            rw [hav] at this
            exact absurd this (List.not_mem_nil c0)
        · intro m hm
          rcases scan_fold_mem alpha beta gamma delta epsilon 0 jr matrix
              (c0 :: cs) ((none, none), 0) with h | ⟨c2, hc2, he⟩
          · rw [h] at hm
            cases hm
          · rw [he] at hm
            have hc2m : c2 = m := Option.some.inj hm
            subst hc2m
            refine (mem_sc_valid_moves matrix lm hlm c2).mp ?_
            rw [hcand]
            exact hc2

theorem ab_root_fold_mem (pid depth : ℕ) :
    ∀ (l : List ABNode) (init : Option Move × EQ),
      (l.foldl (AlphaBetaStrategy.root_step pid depth) init).1 = init.1 ∨
      ∃ ch ∈ l, (l.foldl (AlphaBetaStrategy.root_step pid depth) init).1
        = ch.move := by
  intro l
  induction l with
  | nil => exact fun init => Or.inl rfl
  | cons ch rest ih =>
      intro init
      simp only [List.foldl_cons]
      have hstep : (AlphaBetaStrategy.root_step pid depth init ch).1 = init.1 ∨
          (AlphaBetaStrategy.root_step pid depth init ch).1 = ch.move := by
        simp only [AlphaBetaStrategy.root_step]
        by_cases hc : init.2 <
            AlphaBetaStrategy.alpha_beta pid (depth - 1) ch ⊥ ⊤ false
        · rw [if_pos hc]
          exact Or.inr rfl
        · rw [if_neg hc]
          exact Or.inl rfl
      rcases ih (AlphaBetaStrategy.root_step pid depth init ch) with h |
          ⟨ch2, hch2, he⟩
      · rcases hstep with h2 | h2
        · exact Or.inl (h.trans h2)
        · exact Or.inr ⟨ch, by simp, h.trans h2⟩
      · exact Or.inr ⟨ch2, by simp [hch2], he⟩

theorem ABNode.generate_children_moves (n : ABNode) (ch : ABNode)
    (h : ch ∈ n.generate_children) :
    ∃ mv ∈ n.get_available_moves, ch.move = some mv := by
  simp only [ABNode.generate_children, List.mem_map] at h
  obtain ⟨mv, hmv, he⟩ := h
  exact ⟨mv, hmv, by rw [← he]⟩

theorem AlphaBetaStrategy.ab_decide_mem (budget cap : ℕ) (root : ABNode)
    (m : Move)
    (h : AlphaBetaStrategy.decide_from_root budget cap root = some m) :
    m ∈ root.get_available_moves := by
  simp only [AlphaBetaStrategy.decide_from_root] at h
  split at h
  · exact absurd h (by simp)
  · cases hres : (pySortStable
        (fun x y => decide (AlphaBetaStrategy.root_order_key y ≤
          AlphaBetaStrategy.root_order_key x))
        root.generate_children).foldl
        (AlphaBetaStrategy.root_step root.player_id
          (AlphaBetaStrategy.dynamic_depth budget cap root.board
            root.last_move))
        (none, (⊥ : EQ)) with
    | mk resm resv =>
        rw [hres] at h
        dsimp only at h
        rcases ab_root_fold_mem root.player_id
            (AlphaBetaStrategy.dynamic_depth budget cap root.board
              root.last_move) _ (none, (⊥ : EQ)) with hfold | ⟨ch, hch, hfold⟩
        · rw [hres] at hfold
          dsimp only at hfold
          subst hfold
          cases hpm : pyMax (fun mv => cellI root.board mv.1 mv.2)
              root.get_available_moves with
          | none =>
              rw [hpm] at h
              exact absurd h (by simp)
          | some bm =>
              rw [hpm] at h
              dsimp only at h
              have := pyMax_mem _ _ _ hpm
              rwa [← Option.some.inj h]
        · rw [hres] at hfold
          dsimp only at hfold
          subst hfold
          have hchm := ABNode.generate_children_moves root ch
            ((pySortStable_perm _ _).subset hch)
          obtain ⟨mv, hmv, he⟩ := hchm
          rw [he] at h
          dsimp only at h
          rwa [← Option.some.inj h]

theorem AlphaBetaStrategy.ab_decide_none_iff (budget cap : ℕ) (root : ABNode) :
    (AlphaBetaStrategy.decide_from_root budget cap root = none ↔
     root.get_available_moves = []) := by
  simp only [AlphaBetaStrategy.decide_from_root]
  by_cases hterm : root.is_terminal = true
  · rw [if_pos hterm]
    simp only [ABNode.is_terminal, List.isEmpty_iff] at hterm
    exact ⟨fun _ => hterm, fun _ => rfl⟩
  · rw [if_neg hterm]
    have havail : root.get_available_moves ≠ [] := by
      intro habs
      exact hterm (by simp [ABNode.is_terminal, habs])
    constructor
    · intro h
      cases hres : ((pySortStable
          (fun x y => decide (AlphaBetaStrategy.root_order_key y ≤
            AlphaBetaStrategy.root_order_key x))
          root.generate_children).foldl
          (AlphaBetaStrategy.root_step root.player_id
            (AlphaBetaStrategy.dynamic_depth budget cap root.board
              root.last_move))
          (none, (⊥ : EQ))).1 with
      | some bm =>
          rw [hres] at h
          exact absurd h (by simp)
      | none =>
          rw [hres] at h
          dsimp only at h
          obtain ⟨bm, hbm⟩ := pyMax_isSome
            (fun mv => cellI root.board mv.1 mv.2) _ havail
          rw [hbm] at h
          exact absurd h (by simp)
    · intro h
      exact absurd h havail

theorem AlphaBetaStrategy.ab_move_mem (budget cap : ℕ) (b : CBoard)
    (lm : Option Move) (sc : ℕ × ℕ) (m : Move)
    (h : AlphaBetaStrategy.move budget cap b lm sc = some m) :
    m ∈ MCTSNode.get_available_moves (toInternal b) lm := by
  have h2 := AlphaBetaStrategy.ab_decide_mem budget cap _ m h
  rwa [AB_avail_eq_MCTS] at h2

theorem AlphaBetaStrategy.ab_move_none_iff (budget cap : ℕ) (b : CBoard)
    (lm : Option Move) (sc : ℕ × ℕ) :
    (AlphaBetaStrategy.move budget cap b lm sc = none ↔
     MCTSNode.get_available_moves (toInternal b) lm = []) := by
  have h2 := AlphaBetaStrategy.ab_decide_none_iff budget cap
    (⟨toInternal b, lm,
      if ((toInternal b).map (fun row => row.count 0)).sum % 2 = 0 then 1
      else 2, none, sc⟩ : ABNode)
  rw [AB_avail_eq_MCTS] at h2
  exact h2

theorem squareI_row_length (b : IBoard) (hsq : squareI b = true) (r : ℕ)
    (hr : r < b.length) : (b[r]?.getD []).length = b.length := by
  simp only [squareI, List.all_eq_true] at hsq
  rw [List.getElem?_eq_getElem hr]
  simpa using hsq _ (List.getElem_mem hr)

/-- C2: the legal move list of the internal move generator shared by MCTS
and alpha-beta contains only unclaimed (nonzero) cells, is exactly the
unclaimed cells when no last move exists, is exactly the unclaimed cells
sharing the last move's row or column otherwise, and contains no
duplicates; and the alpha-beta generator computes the same list. -/
theorem claim_C2 (board : IBoard) (lm : Option Move)
    (hsq : squareI board = true) (hlm : lmOkI board lm = true) :
    (∀ m : Move, m ∈ MCTSNode.get_available_moves board lm ↔
      (m.1 < board.length ∧ m.2 < board.length ∧ cellI board m.1 m.2 ≠ 0 ∧
        ∀ p : Move, lm = some p → (m.1 = p.1 ∨ m.2 = p.2))) ∧
    (MCTSNode.get_available_moves board lm).Nodup ∧
    (∀ n : ABNode, n.board = board → n.last_move = lm →
      n.get_available_moves = MCTSNode.get_available_moves board lm) := by
  refine ⟨?_, nodup_MCTS_avail board lm, ?_⟩
  · intro m
    obtain ⟨mr, mc⟩ := m
    cases lm with
    | none =>
        rw [mem_MCTS_avail_none]
        constructor
        · rintro ⟨h1, h2, h3⟩
          rw [squareI_row_length board hsq mr h1] at h2
          exact ⟨h1, h2, h3, fun p hp => by cases hp⟩
        · rintro ⟨h1, h2, h3, _⟩
          exact ⟨h1, by rw [squareI_row_length board hsq mr h1]; exact h2, h3⟩
    | some p =>
        obtain ⟨r0, c0⟩ := p
        simp only [lmOkI, Bool.and_eq_true, decide_eq_true_eq] at hlm
        obtain ⟨hr0, hc0⟩ := hlm
        rw [mem_MCTS_avail_some]
        constructor
        · rintro (⟨h1, h2, h3⟩ | ⟨h1, h2, h3, h4⟩)
          · simp only at h1 h2 h3
            subst h1
            rw [squareI_row_length board hsq mr hr0] at h2
            exact ⟨hr0, h2, h3, fun q hq => by
              obtain ⟨hq1, hq2⟩ := Prod.mk.injEq .. ▸ Option.some.inj hq
              exact Or.inl hq1⟩
          · simp only at h1 h2 h3 h4
            subst h3
            exact ⟨h2, hc0, h4, fun q hq => by
              obtain ⟨hq1, hq2⟩ := Prod.mk.injEq .. ▸ Option.some.inj hq
              exact Or.inr hq2⟩
        · rintro ⟨h1, h2, h3, h4⟩
          simp only at h1 h2 h3
          have hcond := h4 (r0, c0) rfl
          simp only at hcond
          by_cases hm1 : mr = r0
          · subst hm1
            rw [squareI_row_length board hsq mr hr0]
            exact Or.inl ⟨rfl, h2, h3⟩
          · rcases hcond with he | he
            · exact absurd he hm1
            · subst he
              exact Or.inr ⟨hm1, h1, rfl, h3⟩
  · intro n hb hl
    rw [← hb, ← hl]
    exact AB_avail_eq_MCTS n

theorem countNonzero_cons (row : List ℕ) (rest : IBoard) :
    countNonzero (row :: rest) =
      (row.filter (fun v => v ≠ 0)).length + countNonzero rest := by
  simp [countNonzero]

theorem countNonzero_le_sq_aux :
    ∀ (board : IBoard) (n : ℕ), (∀ row ∈ board, row.length = n) →
      countNonzero board ≤ board.length * n := by
  intro board
  induction board with
  | nil =>
      intro n _
      simp [countNonzero]
  | cons row rest ih =>
      intro n hsq
      rw [countNonzero_cons]
      have h1 : (row.filter (fun v => v ≠ 0)).length ≤ row.length :=
        List.length_filter_le _ _
      have h2 := hsq row (by simp)
      have h3 := ih n (fun r hr => hsq r (by simp [hr]))
      simp only [List.length_cons]
      have h4 : (rest.length + 1) * n = rest.length * n + n := by ring
      omega

/-- C7: with the default node budget 60000 and hard cap 12 the dynamic depth
of the alpha-beta strategy is between 1 and `min remaining 12` whenever a
cell remains, and on boards of dimension at most 3 it equals the number of
remaining (nonzero) cells, i.e. the search is exhaustive. -/
theorem claim_C7 (board : IBoard) (lm : Option Move)
    (hsq : squareI board = true) (hnz : 1 ≤ countNonzero board) :
    (1 ≤ AlphaBetaStrategy.dynamic_depth 60000 12 board lm ∧
      AlphaBetaStrategy.dynamic_depth 60000 12 board lm ≤
        min (countNonzero board) 12) ∧
    (board.length ≤ 3 →
      AlphaBetaStrategy.dynamic_depth 60000 12 board lm =
        countNonzero board) := by
  have hle : countNonzero board ≤ board.length * board.length := by
    refine countNonzero_le_sq_aux board board.length ?_
    intro row hrow
    simp only [squareI, List.all_eq_true] at hsq
    simpa using hsq row hrow
  simp only [AlphaBetaStrategy.dynamic_depth]
  by_cases hn3 : board.length ≤ 3
  · rw [if_pos hn3]
    have hnn : board.length * board.length ≤ 9 := by
      calc board.length * board.length ≤ 3 * 3 :=
            Nat.mul_le_mul hn3 hn3
        _ = 9 := by norm_num
    constructor
    · omega
    · intro _
      omega
  · rw [if_neg hn3]
    by_cases hn4 : board.length = 4
    · rw [if_pos hn4]
      rw [hn4]
      have hb : max 2 (min (2 * 4 - 1) 10) = 7 := by norm_num
      have hbud : max 60000 2 = 60000 := by norm_num
      rw [hb, hbud]
      have hlog : Nat.log 7 60000 = 5 :=
        Nat.log_eq_of_pow_le_of_lt_pow (by norm_num) (by norm_num)
      rw [hlog]
      refine ⟨⟨?_, ?_⟩, fun h => absurd h (by norm_num)⟩
      · omega
      · omega
    · rw [if_neg hn4]
      refine ⟨⟨?_, ?_⟩, fun h => absurd h hn3⟩
      · omega
      · omega

/-- Witness for C7 at a concrete 3×3 board with one claimed cell. -/
theorem claim_C7_witness :
    (squareI [[2, 4, 6], [3, 0, 7], [5, 1, 3]] = true ∧
      1 ≤ countNonzero [[2, 4, 6], [3, 0, 7], [5, 1, 3]]) ∧
    ((1 ≤ AlphaBetaStrategy.dynamic_depth 60000 12
        [[2, 4, 6], [3, 0, 7], [5, 1, 3]] none ∧
      AlphaBetaStrategy.dynamic_depth 60000 12
        [[2, 4, 6], [3, 0, 7], [5, 1, 3]] none ≤
        min (countNonzero [[2, 4, 6], [3, 0, 7], [5, 1, 3]]) 12) ∧
      (([[2, 4, 6], [3, 0, 7], [5, 1, 3]] : IBoard).length ≤ 3 →
        AlphaBetaStrategy.dynamic_depth 60000 12
          [[2, 4, 6], [3, 0, 7], [5, 1, 3]] none =
          countNonzero [[2, 4, 6], [3, 0, 7], [5, 1, 3]])) :=
  ⟨⟨by decide, by decide⟩,
    claim_C7 [[2, 4, 6], [3, 0, 7], [5, 1, 3]] none (by decide) (by decide)⟩

/-- C3: if the current player's strategy returns a move that is not in the
legal move set of the current simulation state, `run_game` raises
(`SimStep.illegal`) before any state change: the error carries the board,
scores, current player and last move exactly as they were on entry. -/
theorem claim_C3 (strat : CBoard → Option Move → ℕ × ℕ → Option Move)
    (st : SimState) (m : Move)
    (havail : SimulationEngine.get_available_moves st ≠ [])
    (hret : strat st.matrix st.last_move st.score = some m)
    (hbad : m ∉ SimulationEngine.get_available_moves st) :
    SimulationEngine.step strat st =
      SimStep.illegal ⟨st.matrix, st.score, st.current_player, st.last_move⟩ := by
  simp only [SimulationEngine.step]
  rw [if_neg (by simpa using havail)]
  rw [hret]
  dsimp only
  rw [if_neg hbad]

/-- Witness for C3: a strategy that always answers (9, 9) on a 2×2 board. -/
theorem claim_C3_witness :
    (SimulationEngine.get_available_moves
        ⟨[[Cell.num 1, Cell.num 2], [Cell.num 3, Cell.num 4]], (0, 0), 0, none⟩
        ≠ [] ∧
      (fun (_ : CBoard) (_ : Option Move) (_ : ℕ × ℕ) =>
          some ((9, 9) : Move)) [[Cell.num 1, Cell.num 2], [Cell.num 3, Cell.num 4]]
          none (0, 0) = some (9, 9) ∧
      ((9, 9) : Move) ∉ SimulationEngine.get_available_moves
        ⟨[[Cell.num 1, Cell.num 2], [Cell.num 3, Cell.num 4]], (0, 0), 0, none⟩) ∧
    SimulationEngine.step
      (fun (_ : CBoard) (_ : Option Move) (_ : ℕ × ℕ) => some ((9, 9) : Move))
      ⟨[[Cell.num 1, Cell.num 2], [Cell.num 3, Cell.num 4]], (0, 0), 0, none⟩ =
      SimStep.illegal ⟨[[Cell.num 1, Cell.num 2], [Cell.num 3, Cell.num 4]],
        (0, 0), 0, none⟩ :=
  ⟨⟨by decide, rfl, by decide⟩,
    claim_C3 _ _ (9, 9) (by decide) rfl (by decide)⟩

/-- C5: the end-to-end Greedy-vs-Greedy scenario on the fixed 4×4 board:
first move (1,2) of value 9, second player restricted to row 1 and column 2,
second move (1,3) of value 8, and scores (9, 8) after the two plies. -/
theorem claim_C5 :
    (GreedyStrategy.move
      [[Cell.num 1, Cell.num 5, Cell.num 7, Cell.num 2],
       [Cell.num 3, Cell.num 6, Cell.num 9, Cell.num 8],
       [Cell.num 4, Cell.num 4, Cell.num 2, Cell.num 1],
       [Cell.num 9, Cell.num 6, Cell.num 3, Cell.num 6]] none (0, 0)
      = some (1, 2)) ∧
    (SimulationEngine.step GreedyStrategy.move
      ⟨[[Cell.num 1, Cell.num 5, Cell.num 7, Cell.num 2],
        [Cell.num 3, Cell.num 6, Cell.num 9, Cell.num 8],
        [Cell.num 4, Cell.num 4, Cell.num 2, Cell.num 1],
        [Cell.num 9, Cell.num 6, Cell.num 3, Cell.num 6]], (0, 0), 0, none⟩
      = SimStep.next
        ⟨[[Cell.num 1, Cell.num 5, Cell.num 7, Cell.num 2],
          [Cell.num 3, Cell.num 6, Cell.claimed, Cell.num 8],
          [Cell.num 4, Cell.num 4, Cell.num 2, Cell.num 1],
          [Cell.num 9, Cell.num 6, Cell.num 3, Cell.num 6]], (9, 0), 1,
          some (1, 2)⟩) ∧
    (∀ r, r < 4 → ∀ c, c < 4 →
      (((r, c) : Move) ∈ SimulationEngine.get_available_moves
        ⟨[[Cell.num 1, Cell.num 5, Cell.num 7, Cell.num 2],
          [Cell.num 3, Cell.num 6, Cell.claimed, Cell.num 8],
          [Cell.num 4, Cell.num 4, Cell.num 2, Cell.num 1],
          [Cell.num 9, Cell.num 6, Cell.num 3, Cell.num 6]], (9, 0), 1,
          some (1, 2)⟩ ↔
        (cellAt [[Cell.num 1, Cell.num 5, Cell.num 7, Cell.num 2],
          [Cell.num 3, Cell.num 6, Cell.claimed, Cell.num 8],
          [Cell.num 4, Cell.num 4, Cell.num 2, Cell.num 1],
          [Cell.num 9, Cell.num 6, Cell.num 3, Cell.num 6]] r c ≠ Cell.claimed
          ∧ (r = 1 ∨ c = 2)))) ∧
    (∀ m ∈ SimulationEngine.get_available_moves
        ⟨[[Cell.num 1, Cell.num 5, Cell.num 7, Cell.num 2],
          [Cell.num 3, Cell.num 6, Cell.claimed, Cell.num 8],
          [Cell.num 4, Cell.num 4, Cell.num 2, Cell.num 1],
          [Cell.num 9, Cell.num 6, Cell.num 3, Cell.num 6]], (9, 0), 1,
          some (1, 2)⟩, m.1 < 4 ∧ m.2 < 4) ∧
    (GreedyStrategy.move
      [[Cell.num 1, Cell.num 5, Cell.num 7, Cell.num 2],
       [Cell.num 3, Cell.num 6, Cell.claimed, Cell.num 8],
       [Cell.num 4, Cell.num 4, Cell.num 2, Cell.num 1],
       [Cell.num 9, Cell.num 6, Cell.num 3, Cell.num 6]] (some (1, 2)) (9, 0)
      = some (1, 3)) ∧
    (SimulationEngine.step GreedyStrategy.move
      ⟨[[Cell.num 1, Cell.num 5, Cell.num 7, Cell.num 2],
        [Cell.num 3, Cell.num 6, Cell.claimed, Cell.num 8],
        [Cell.num 4, Cell.num 4, Cell.num 2, Cell.num 1],
        [Cell.num 9, Cell.num 6, Cell.num 3, Cell.num 6]], (9, 0), 1,
        some (1, 2)⟩
      = SimStep.next
        ⟨[[Cell.num 1, Cell.num 5, Cell.num 7, Cell.num 2],
          [Cell.num 3, Cell.num 6, Cell.claimed, Cell.claimed],
          [Cell.num 4, Cell.num 4, Cell.num 2, Cell.num 1],
          [Cell.num 9, Cell.num 6, Cell.num 3, Cell.num 6]], (9, 8), 0,
          some (1, 3)⟩) := by
  refine ⟨by decide, by decide, by decide, by decide, by decide, by decide⟩

/-- C4 counterexample: on the board `[[5,5],[1,1]]` with no last move both
(0,0) and (0,1) hold the maximal value 5; the code (`max`) returns the FIRST
such move (0,0) in row-major order, while the claim's tie-break (last in
row-major order, the spec-side `greedySpecLastMax`) demands (0,1). -/
theorem claim_C4_counterexample :
    GreedyStrategy.move [[Cell.num 5, Cell.num 5], [Cell.num 1, Cell.num 1]]
      none (0, 0) = some (0, 0) ∧
    greedySpecLastMax [[Cell.num 5, Cell.num 5], [Cell.num 1, Cell.num 1]]
      none = some (0, 1) ∧
    (some ((0, 0) : Move) ≠ some ((0, 1) : Move)) := by
  refine ⟨by decide, by decide, by decide⟩

/-- C4 (amended): with a non-empty legal move set the greedy strategy
returns a legal move of maximal cell value, and among equally-valued moves
the one encountered FIRST in row-major enumeration order (the legal list
splits into a strictly-smaller prefix and a no-larger suffix around it). -/
theorem claim_C4 (matrix : CBoard) (lm : Option Move) (sc : ℕ × ℕ)
    (h : availableCellsRM matrix lm ≠ []) :
    ∃ m, GreedyStrategy.move matrix lm sc = some m ∧
      m ∈ availableCellsRM matrix lm ∧
      (∀ x ∈ availableCellsRM matrix lm,
        cellValN matrix x.1 x.2 ≤ cellValN matrix m.1 m.2) ∧
      ∃ l1 l2, availableCellsRM matrix lm = l1 ++ m :: l2 ∧
        (∀ x ∈ l1, cellValN matrix x.1 x.2 < cellValN matrix m.1 m.2) ∧
        (∀ x ∈ l2, cellValN matrix x.1 x.2 ≤ cellValN matrix m.1 m.2) := by
  rw [GreedyStrategy.move_eq_pyMax matrix lm sc h]
  cases havail : availableCellsRM matrix lm with
  | nil => exact absurd havail h
  | cons x xs =>
      refine ⟨pyMaxGo (fun pos => ((cellValN matrix pos.1 pos.2 : ℕ) : ℚ)) x xs,
        rfl, pyMaxGo_mem _ x xs, ?_, ?_⟩
      · intro y hy
        have h2 := pyMaxGo_le
          (fun pos => ((cellValN matrix pos.1 pos.2 : ℕ) : ℚ)) x xs y hy
        simp only at h2
        exact_mod_cast h2
      · obtain ⟨l1, l2, he, h1, h2⟩ := pyMaxGo_first
          (fun pos => ((cellValN matrix pos.1 pos.2 : ℕ) : ℚ)) x xs
        refine ⟨l1, l2, he, ?_, ?_⟩
        · intro y hy
          have h3 := h1 y hy
          simp only at h3
          exact_mod_cast h3
        · intro y hy
          have h3 := h2 y hy
          simp only at h3
          exact_mod_cast h3

/-- Witness for C4 on a concrete board with a value tie. -/
theorem claim_C4_witness :
    (availableCellsRM [[Cell.num 2, Cell.num 7], [Cell.num 7, Cell.num 1]]
      none ≠ []) ∧
    ∃ m, GreedyStrategy.move
        [[Cell.num 2, Cell.num 7], [Cell.num 7, Cell.num 1]] none (0, 0)
        = some m ∧
      m ∈ availableCellsRM [[Cell.num 2, Cell.num 7], [Cell.num 7, Cell.num 1]]
        none ∧
      (∀ x ∈ availableCellsRM [[Cell.num 2, Cell.num 7], [Cell.num 7, Cell.num 1]]
        none,
        cellValN [[Cell.num 2, Cell.num 7], [Cell.num 7, Cell.num 1]] x.1 x.2 ≤
          cellValN [[Cell.num 2, Cell.num 7], [Cell.num 7, Cell.num 1]] m.1 m.2) ∧
      ∃ l1 l2, availableCellsRM
          [[Cell.num 2, Cell.num 7], [Cell.num 7, Cell.num 1]] none
          = l1 ++ m :: l2 ∧
        (∀ x ∈ l1, cellValN [[Cell.num 2, Cell.num 7], [Cell.num 7, Cell.num 1]]
          x.1 x.2 <
          cellValN [[Cell.num 2, Cell.num 7], [Cell.num 7, Cell.num 1]] m.1 m.2) ∧
        (∀ x ∈ l2, cellValN [[Cell.num 2, Cell.num 7], [Cell.num 7, Cell.num 1]]
          x.1 x.2 ≤
          cellValN [[Cell.num 2, Cell.num 7], [Cell.num 7, Cell.num 1]] m.1 m.2) :=
  ⟨by decide,
    claim_C4 [[Cell.num 2, Cell.num 7], [Cell.num 7, Cell.num 1]] none (0, 0)
      (by decide)⟩

theorem mem_MCTS_avail_nonzero (board : IBoard) (lm : Option Move) (m : Move)
    (h : m ∈ MCTSNode.get_available_moves board lm) :
    cellI board m.1 m.2 ≠ 0 := by
  cases lm with
  | none => exact ((mem_MCTS_avail_none board m).mp h).2.2
  | some p =>
      obtain ⟨lr, lc⟩ := p
      rcases (mem_MCTS_avail_some board lr lc m).mp h with
        ⟨h1, _, h3⟩ | ⟨_, _, h3, h4⟩
      · rw [h1]
        exact h3
      · rw [h3]
        exact h4

theorem MCTSStrategy.decide_none_of_nil (flog fsqrt : ℚ → ℚ) (g : ℕ → ℕ)
    (iters : ℕ) (ts : ℚ) (bI : IBoard) (lm : Option Move) (pid : ℕ)
    (sc : ℕ × ℕ) (ctr : ℕ)
    (h : MCTSNode.get_available_moves bI lm = []) :
    MCTSStrategy.decide_from_root flog fsqrt g iters ts
      (MCTSNode.init g bI lm pid none sc ctr) = none := by
  have hperm := MCTSNode.init_untried_perm g bI lm pid none sc ctr
  rw [h] at hperm
  have huntried := List.Perm.eq_nil hperm
  simp only [MCTSStrategy.decide_from_root]
  rw [if_pos (by simp [huntried])]

theorem MCTSStrategy.move_none_of_nil (flog fsqrt : ℚ → ℚ) (g : ℕ → ℕ)
    (iters : ℕ) (b : CBoard) (lm : Option Move) (sc : ℕ × ℕ)
    (h : MCTSNode.get_available_moves (toInternal b) lm = []) :
    MCTSStrategy.move flog fsqrt g iters b lm sc = none :=
  MCTSStrategy.decide_none_of_nil flog fsqrt g iters _ (toInternal b) lm _ sc 0 h

/-- C1 counterexample: on the square board `[[0]]` (a non-negative cell value
with no claimed marker) the legal move set is `[(0,0)]`, yet the MCTS
strategy returns `None`, because it maps claimed cells to `0` internally and
treats the 0-valued cell as taken.  This falsifies "returns None iff the
legal move set is empty" for boards with 0-valued cells. -/
theorem claim_C1_counterexample :
    availableCellsRM [[Cell.num 0]] none = [(0, 0)] ∧
    availableCellsRM [[Cell.num 0]] none ≠ [] ∧
    MCTSStrategy.move (fun _ => 0) (fun _ => 0) (fun _ => 0) 1
      [[Cell.num 0]] none (0, 0) = none ∧
    AlphaBetaStrategy.move 60000 12 [[Cell.num 0]] none (0, 0) = none := by
  refine ⟨by decide, by decide, by decide, by decide⟩

/-- C1 (amended): on square boards whose unclaimed cells carry positive
values, with an in-range (or absent) last move, each of the five strategies
returns `None` exactly when the legal move set is empty and otherwise a
member of the legal move set; for MCTS this holds for every random stream,
every float log/sqrt behaviour and every positive iteration budget. -/
theorem claim_C1 (b : CBoard) (lm : Option Move) (sc : ℕ × ℕ)
    (hsq : squareB b = true) (hlm : lmOkB b lm = true)
    (hpos : allPosB b = true) :
    (∀ k, respectsLegal (RandomStrategy.move k b lm sc) b lm) ∧
    respectsLegal (GreedyStrategy.move b lm sc) b lm ∧
    (∀ jr, respectsLegal
      (SafeChoiceStrategy.move 1 1 (3/20) (1/20) (1/20) 0 jr b lm sc) b lm) ∧
    (∀ flog fsqrt g iters, 1 ≤ iters →
      respectsLegal (MCTSStrategy.move flog fsqrt g iters b lm sc) b lm) ∧
    respectsLegal (AlphaBetaStrategy.move 60000 12 b lm sc) b lm := by
  refine ⟨?_, ?_, ?_, ?_, ?_⟩
  · intro k
    exact (RandomStrategy.move_spec k b lm sc)
  · constructor
    · exact GreedyStrategy.greedy_move_none_iff b lm sc
    · intro m hm
      by_cases hav : availableCellsRM b lm = []
      · rw [(GreedyStrategy.greedy_move_none_iff b lm sc).mpr hav] at hm
        cases hm
      · rw [GreedyStrategy.move_eq_pyMax b lm sc hav] at hm
        exact pyMax_mem _ _ _ hm
  · intro jr
    exact SafeChoiceStrategy.sc_move_spec 1 1 (3/20) (1/20) (1/20) jr b lm sc hlm
  · intro flog fsqrt g iters hiters
    constructor
    · rw [MCTSStrategy.move_none_iff flog fsqrt g iters b lm sc hiters]
      exact MCTS_avail_nil_iff_pos b lm hsq hlm hpos
    · intro m hm
      exact (mem_MCTS_toInternal_pos b lm hsq hlm hpos m).mp
        (MCTSStrategy.move_mem flog fsqrt g iters b lm sc m hm)
  · constructor
    · rw [AlphaBetaStrategy.ab_move_none_iff 60000 12 b lm sc]
      exact MCTS_avail_nil_iff_pos b lm hsq hlm hpos
    · intro m hm
      exact (mem_MCTS_toInternal_pos b lm hsq hlm hpos m).mp
        (AlphaBetaStrategy.ab_move_mem 60000 12 b lm sc m hm)

/-- Witness for C1 on a concrete positive 2×2 board. -/
theorem claim_C1_witness :
    (squareB [[Cell.num 2, Cell.num 3], [Cell.num 4, Cell.num 5]] = true ∧
      lmOkB [[Cell.num 2, Cell.num 3], [Cell.num 4, Cell.num 5]] none = true ∧
      allPosB [[Cell.num 2, Cell.num 3], [Cell.num 4, Cell.num 5]] = true) ∧
    ((∀ k, respectsLegal (RandomStrategy.move k
        [[Cell.num 2, Cell.num 3], [Cell.num 4, Cell.num 5]] none (0, 0))
        [[Cell.num 2, Cell.num 3], [Cell.num 4, Cell.num 5]] none) ∧
      respectsLegal (GreedyStrategy.move
        [[Cell.num 2, Cell.num 3], [Cell.num 4, Cell.num 5]] none (0, 0))
        [[Cell.num 2, Cell.num 3], [Cell.num 4, Cell.num 5]] none ∧
      (∀ jr, respectsLegal (SafeChoiceStrategy.move 1 1 (3/20) (1/20) (1/20) 0
        jr [[Cell.num 2, Cell.num 3], [Cell.num 4, Cell.num 5]] none (0, 0))
        [[Cell.num 2, Cell.num 3], [Cell.num 4, Cell.num 5]] none) ∧
      (∀ flog fsqrt g iters, 1 ≤ iters →
        respectsLegal (MCTSStrategy.move flog fsqrt g iters
          [[Cell.num 2, Cell.num 3], [Cell.num 4, Cell.num 5]] none (0, 0))
          [[Cell.num 2, Cell.num 3], [Cell.num 4, Cell.num 5]] none) ∧
      respectsLegal (AlphaBetaStrategy.move 60000 12
        [[Cell.num 2, Cell.num 3], [Cell.num 4, Cell.num 5]] none (0, 0))
        [[Cell.num 2, Cell.num 3], [Cell.num 4, Cell.num 5]] none) :=
  ⟨⟨by decide, by decide, by decide⟩,
    claim_C1 [[Cell.num 2, Cell.num 3], [Cell.num 4, Cell.num 5]] none (0, 0)
      (by decide) (by decide) (by decide)⟩

/-- C8 counterexample: on the square board `[[0, '-'], ['-', '-']]` the legal
move set is exactly `[(0,0)]` (one element), yet MCTS returns `None` instead
of that single move, because the 0-valued cell is treated as taken on the
internal board. -/
theorem claim_C8_counterexample :
    availableCellsRM [[Cell.num 0, Cell.claimed], [Cell.claimed, Cell.claimed]]
      none = [(0, 0)] ∧
    MCTSStrategy.move (fun _ => 0) (fun _ => 0) (fun _ => 0) 1
      [[Cell.num 0, Cell.claimed], [Cell.claimed, Cell.claimed]] none (0, 0)
      = none ∧
    MCTSStrategy.move (fun _ => 0) (fun _ => 0) (fun _ => 0) 1
      [[Cell.num 0, Cell.claimed], [Cell.claimed, Cell.claimed]] none (0, 0)
      ≠ some (0, 0) := by
  refine ⟨by decide, by decide, by decide⟩

/-- C8 (amended): on square boards whose unclaimed cells carry positive
values, when the legal move set has exactly one element the MCTS strategy
returns that move for EVERY iteration budget (including zero) and every
random stream — i.e. without searching — and when the legal move set is
empty it returns `None`, likewise without searching. -/
theorem claim_C8 (b : CBoard) (lm : Option Move) (sc : ℕ × ℕ)
    (hsq : squareB b = true) (hlm : lmOkB b lm = true)
    (hpos : allPosB b = true) :
    (∀ a : Move, availableCellsRM b lm = [a] →
      ∀ flog fsqrt g iters,
        MCTSStrategy.move flog fsqrt g iters b lm sc = some a) ∧
    (availableCellsRM b lm = [] →
      ∀ flog fsqrt g iters,
        MCTSStrategy.move flog fsqrt g iters b lm sc = none) := by
  constructor
  · intro a ha flog fsqrt g iters
    exact MCTSStrategy.move_singleton flog fsqrt g iters b lm sc a
      (MCTS_avail_singleton_pos b lm hsq hlm hpos a ha)
  · intro ha flog fsqrt g iters
    exact MCTSStrategy.move_none_of_nil flog fsqrt g iters b lm sc
      ((MCTS_avail_nil_iff_pos b lm hsq hlm hpos).mpr ha)

/-- Witness for C8 on a concrete board with a single legal move. -/
theorem claim_C8_witness :
    (squareB [[Cell.num 4, Cell.claimed], [Cell.claimed, Cell.claimed]] = true ∧
      lmOkB [[Cell.num 4, Cell.claimed], [Cell.claimed, Cell.claimed]] none
        = true ∧
      allPosB [[Cell.num 4, Cell.claimed], [Cell.claimed, Cell.claimed]]
        = true) ∧
    ((∀ a : Move, availableCellsRM
        [[Cell.num 4, Cell.claimed], [Cell.claimed, Cell.claimed]] none = [a] →
      ∀ flog fsqrt g iters, MCTSStrategy.move flog fsqrt g iters
        [[Cell.num 4, Cell.claimed], [Cell.claimed, Cell.claimed]] none (0, 0)
        = some a) ∧
    (availableCellsRM
        [[Cell.num 4, Cell.claimed], [Cell.claimed, Cell.claimed]] none = [] →
      ∀ flog fsqrt g iters, MCTSStrategy.move flog fsqrt g iters
        [[Cell.num 4, Cell.claimed], [Cell.claimed, Cell.claimed]] none (0, 0)
        = none)) :=
  ⟨⟨by decide, by decide, by decide⟩,
    claim_C8 [[Cell.num 4, Cell.claimed], [Cell.claimed, Cell.claimed]] none
      (0, 0) (by decide) (by decide) (by decide)⟩

/-- C10: MCTS and alpha-beta map the claimed marker to `0` internally and
test legality as `value ≠ 0`; hence a 0-valued unclaimed cell is never a
member of their internal legal move list and is never returned by either
strategy, and a board whose every legal cell (under the `'-'`-based rule)
has value 0 makes both strategies return `None` although legal moves exist
under that rule. -/
theorem claim_C10 (b : CBoard) (lm : Option Move) (sc : ℕ × ℕ)
    (hsq : squareB b = true) (hlm : lmOkB b lm = true) :
    (∀ r c : ℕ, cellAt b r c = Cell.num 0 →
      ((r, c) ∉ MCTSNode.get_available_moves (toInternal b) lm) ∧
      (∀ n : ABNode, n.board = toInternal b → n.last_move = lm →
        (r, c) ∉ n.get_available_moves) ∧
      (∀ flog fsqrt g iters,
        MCTSStrategy.move flog fsqrt g iters b lm sc ≠ some (r, c)) ∧
      (∀ budget cap,
        AlphaBetaStrategy.move budget cap b lm sc ≠ some (r, c))) ∧
    ((∀ m ∈ availableCellsRM b lm, cellValN b m.1 m.2 = 0) →
      (∀ flog fsqrt g iters,
        MCTSStrategy.move flog fsqrt g iters b lm sc = none) ∧
      (∀ budget cap, AlphaBetaStrategy.move budget cap b lm sc = none)) := by
  constructor
  · intro r c hzero
    have hzv : cellI (toInternal b) r c = 0 := by
      rw [cellI_toInternal, hzero]
      rfl
    have hnm : ((r, c) : Move) ∉ MCTSNode.get_available_moves (toInternal b) lm := by
      intro habs
      exact (mem_MCTS_avail_nonzero _ _ _ habs) hzv
    refine ⟨hnm, ?_, ?_, ?_⟩
    · intro n hb hl
      rw [AB_avail_eq_MCTS, hb, hl]
      exact hnm
    · intro flog fsqrt g iters habs
      exact hnm (MCTSStrategy.move_mem flog fsqrt g iters b lm sc _ habs)
    · intro budget cap habs
      exact hnm (AlphaBetaStrategy.ab_move_mem budget cap b lm sc _ habs)
  · intro hall
    have hnil : MCTSNode.get_available_moves (toInternal b) lm = [] := by
      rw [List.eq_nil_iff_forall_not_mem]
      intro m hm
      obtain ⟨hrm, hval⟩ := (mem_MCTS_toInternal_iff b lm hsq hlm m).mp hm
      exact hval (hall m hrm)
    constructor
    · intro flog fsqrt g iters
      exact MCTSStrategy.move_none_of_nil flog fsqrt g iters b lm sc hnil
    · intro budget cap
      exact (AlphaBetaStrategy.ab_move_none_iff budget cap b lm sc).mpr hnil

/-- Witness for C10 on the board `[[0]]`. -/
theorem claim_C10_witness :
    (squareB [[Cell.num 0]] = true ∧ lmOkB [[Cell.num 0]] none = true ∧
      cellAt [[Cell.num 0]] 0 0 = Cell.num 0 ∧
      (∀ m ∈ availableCellsRM [[Cell.num 0]] none,
        cellValN [[Cell.num 0]] m.1 m.2 = 0)) ∧
    ((∀ r c : ℕ, cellAt [[Cell.num 0]] r c = Cell.num 0 →
      (((r, c) : Move) ∉ MCTSNode.get_available_moves
        (toInternal [[Cell.num 0]]) none) ∧
      (∀ n : ABNode, n.board = toInternal [[Cell.num 0]] → n.last_move = none →
        ((r, c) : Move) ∉ n.get_available_moves) ∧
      (∀ flog fsqrt g iters, MCTSStrategy.move flog fsqrt g iters
        [[Cell.num 0]] none (0, 0) ≠ some (r, c)) ∧
      (∀ budget cap, AlphaBetaStrategy.move budget cap [[Cell.num 0]] none
        (0, 0) ≠ some (r, c))) ∧
    ((∀ m ∈ availableCellsRM [[Cell.num 0]] none,
        cellValN [[Cell.num 0]] m.1 m.2 = 0) →
      (∀ flog fsqrt g iters, MCTSStrategy.move flog fsqrt g iters
        [[Cell.num 0]] none (0, 0) = none) ∧
      (∀ budget cap, AlphaBetaStrategy.move budget cap [[Cell.num 0]] none
        (0, 0) = none))) :=
  ⟨⟨by decide, by decide, by decide, by decide⟩,
    claim_C10 [[Cell.num 0]] none (0, 0) (by decide) (by decide)⟩

/-- C6 (code bug): on the fully symmetric board `[[1,1],[1,1]]` with no move
restriction, every cell is a candidate and all four candidates tie on the
composite score, the parity features and the one-count (the board is
invariant under swapping rows and under swapping columns), so the claimed
"bottom-rightmost" tie-break demands `(1,1)`; but the code maximises the key
`(composite, ones, a, b, -i, -j)`, whose `-i, -j` components prefer SMALL
indices, so it returns the top-left cell `(0,0)` instead. -/
theorem claim_C6 :
    SafeChoiceStrategy.valid_moves [[Cell.num 1, Cell.num 1],
      [Cell.num 1, Cell.num 1]] none = [(0, 0), (0, 1), (1, 0), (1, 1)] ∧
    SafeChoiceStrategy.move 1 1 (3/20) (1/20) (1/20) 0 (fun _ => 0)
      [[Cell.num 1, Cell.num 1], [Cell.num 1, Cell.num 1]] none (0, 0)
      = some (0, 0) ∧
    SafeChoiceStrategy.move 1 1 (3/20) (1/20) (1/20) 0 (fun _ => 0)
      [[Cell.num 1, Cell.num 1], [Cell.num 1, Cell.num 1]] none (0, 0)
      ≠ some (1, 1) := by
  have hmv : SafeChoiceStrategy.move 1 1 (3/20) (1/20) (1/20) 0 (fun _ => 0)
      [[Cell.num 1, Cell.num 1], [Cell.num 1, Cell.num 1]] none (0, 0)
      = some (0, 0) := by
    norm_num +decide [SafeChoiceStrategy.move, SafeChoiceStrategy.valid_moves,
      SafeChoiceStrategy.scan_step, SafeChoiceStrategy.update_best,
      SafeChoiceStrategy.cell_value, SafeChoiceStrategy.parity_from_excluding,
      SafeChoiceStrategy.top2_summary_row, SafeChoiceStrategy.top2_summary_col,
      SafeChoiceStrategy.top2_from_values, SafeChoiceStrategy.opponent_best_after,
      scKeyGt, pySortStable, pyInsert, cellAt, List.range_succ, List.foldl,
      List.filterMap, List.count, List.dedup]
  refine ⟨by decide, hmv, by rw [hmv]; decide⟩

/-- Witness for C2 on the internal board `[[1,2],[3,4]]` with last move
`(0,1)`. -/
theorem claim_C2_witness :
    (squareI [[1, 2], [3, 4]] = true ∧
      lmOkI [[1, 2], [3, 4]] (some (0, 1)) = true) ∧
    ((∀ m : Move,
        m ∈ MCTSNode.get_available_moves [[1, 2], [3, 4]] (some (0, 1)) ↔
        (m.1 < ([[1, 2], [3, 4]] : IBoard).length ∧
          m.2 < ([[1, 2], [3, 4]] : IBoard).length ∧
          cellI [[1, 2], [3, 4]] m.1 m.2 ≠ 0 ∧
          ∀ p : Move, (some (0, 1) : Option Move) = some p →
            (m.1 = p.1 ∨ m.2 = p.2))) ∧
      (MCTSNode.get_available_moves [[1, 2], [3, 4]] (some (0, 1))).Nodup ∧
      (∀ n : ABNode, n.board = [[1, 2], [3, 4]] →
        n.last_move = some (0, 1) →
        n.get_available_moves =
          MCTSNode.get_available_moves [[1, 2], [3, 4]] (some (0, 1)))) :=
  ⟨⟨by decide, by decide⟩,
    claim_C2 [[1, 2], [3, 4]] (some (0, 1)) (by decide) (by decide)⟩
